import Mathlib

/-!
# Verification of the bacefook event-to-store projection pipeline

Shallow embedding of the worker pipeline of `sorathank/zentry-challenge`
(apps/worker: `utils.ts`, `redis-client.ts`, `database-client.ts`,
`worker.ts`, together with the source variants shipped in the repository).

Modelling conventions:
* Machine integers of the source are `Nat` (PostgreSQL serial ids are
  positive and never overflow in the modelled code paths).
* A queue payload is the result of `JSON.parse` on the raw string:
  `none` models text that is not valid JSON, `some j` the parsed value.
* Database tables are association lists; timestamps (`created_at`,
  `updated_at`, `processed_at`) are outside the model, the projector only
  ever writes wall-clock values into them and never reads them back.
* The asynchronous single-flight / TTL machinery is modelled by its
  sequential semantics (one worker, cache not expired), which is the
  setting of the claims under verification.
-/

namespace Bacefook

/-- The four decoded event variants (`ConnectionEvent` of the source).
`created_at` is carried by the wire format but never read by the worker,
so it is not part of the model. -/
inductive ConnectionEvent
  | register (name : String)
  | referral (referredBy : String) (user : String)
  | addfriend (user1_name : String) (user2_name : String)
  | unfriend (user1_name : String) (user2_name : String)
deriving DecidableEq, Repr

/-- JSON values as returned by `JSON.parse`. -/
inductive Json
  | null
  | bool (b : Bool)
  | num (n : Int)
  | str (s : String)
  | arr (elems : List Json)
  | obj (fields : List (String × Json))

/-- Field lookup in a JSON object literal (first binding wins, as in JS). -/
def lookupField : List (String × Json) → String → Option Json
  | [], _ => none
  | (k, v) :: rest, key => if k = key then some v else lookupField rest key

/-- `j?.k` on a parsed JSON value: a field access that is `none` on
non-objects and missing keys. -/
def Json.getField : Json → String → Option Json
  | .obj fields, key => lookupField fields key
  | _, _ => none

/-- `event?.type === t`. -/
def typeIs (j : Json) (t : String) : Bool :=
  match j.getField "type" with
  | some (.str s) => s = t
  | _ => false

/-- `typeof event?.k === "string"`. -/
def strField (j : Json) (k : String) : Bool :=
  match j.getField k with
  | some (.str _) => true
  | _ => false

/-- String field extraction used when converting a guarded value. -/
def getStr (j : Json) (k : String) : Option String :=
  match j.getField k with
  | some (.str s) => some s
  | _ => none

/-- `isRegisterEvent` of `utils.ts`. -/
def isRegisterEvent (j : Json) : Bool :=
  typeIs j "register" && strField j "name"

/-- `isReferralEvent` of `utils.ts`. -/
def isReferralEvent (j : Json) : Bool :=
  typeIs j "referral" && strField j "referredBy" && strField j "user"

/-- `isAddFriendEvent` of `utils.ts`. -/
def isAddFriendEvent (j : Json) : Bool :=
  typeIs j "addfriend" && strField j "user1_name" && strField j "user2_name"

/-- `isUnfriendEvent` of `utils.ts`. -/
def isUnfriendEvent (j : Json) : Bool :=
  typeIs j "unfriend" && strField j "user1_name" && strField j "user2_name"

/-- `isConnectionEvent` of `utils.ts`. -/
def isConnectionEvent (j : Json) : Bool :=
  isRegisterEvent j || isReferralEvent j || isAddFriendEvent j || isUnfriendEvent j

/-- Conversion of a guarded JSON value into the tagged variant; the typed
view `parseTransaction` returns to the worker. -/
def toEvent (j : Json) : Option ConnectionEvent :=
  if isRegisterEvent j then
    (getStr j "name").map ConnectionEvent.register
  else if isReferralEvent j then
    match getStr j "referredBy", getStr j "user" with
    | some rb, some u => some (ConnectionEvent.referral rb u)
    | _, _ => none
  else if isAddFriendEvent j then
    match getStr j "user1_name", getStr j "user2_name" with
    | some a, some b => some (ConnectionEvent.addfriend a b)
    | _, _ => none
  else if isUnfriendEvent j then
    match getStr j "user1_name", getStr j "user2_name" with
    | some a, some b => some (ConnectionEvent.unfriend a b)
    | _, _ => none
  else none

/-- A raw queue payload after `JSON.parse`: `none` is text that is not
valid JSON. -/
abbrev RawPayload := Option Json

/-- `parseTransaction` of `utils.ts`: rejects invalid JSON and values that
match none of the four guards, returns the decoded variant otherwise. -/
def parseTransaction : RawPayload → Except String ConnectionEvent
  | none => Except.error "Failed to parse transaction"
  | some j =>
    if isConnectionEvent j then
      match toEvent j with
      | some e => Except.ok e
      | none => Except.error "Invalid transaction format"
    else Except.error "Invalid transaction format"

/-- Boolean success test for an `Except` result. -/
def parseSucceeds : Except String ConnectionEvent → Bool
  | Except.ok _ => true
  | Except.error _ => false

/-! ## Queue adapter (`redis-client.ts`) -/

/-- `RPOP`: the producer left-pushes, the worker consumes from the tail.
Returns the popped element (or `none` on an empty list) and the remaining
queue. -/
def rPop (q : List RawPayload) : Option RawPayload × List RawPayload :=
  match q.getLast? with
  | none => (none, q)
  | some x => (some x, q.dropLast)

/-- The pipelined multi-pop: `batchSize` right-pops submitted in one
round-trip; result list in pop order. -/
def pipelinePops : Nat → List RawPayload → List (Option RawPayload) × List RawPayload
  | 0, q => ([], q)
  | n + 1, q =>
    let (r, q') := rPop q
    let (rs, q'') := pipelinePops n q'
    (r :: rs, q'')

/-- The collection loop of `popBatch`: skip `null` results, parse the
rest, drop entries whose parse fails (they are only logged). -/
def collectParsed (results : List (Option RawPayload)) : List ConnectionEvent :=
  match results with
  | [] => []
  | none :: rest => collectParsed rest
  | some raw :: rest =>
    match parseTransaction raw with
    | Except.ok e => e :: collectParsed rest
    | Except.error _ => collectParsed rest

/-- The serial fallback loop of `popBatch`: right-pop one at a time,
stop at the first `null` or after `batchSize` pops, parse and skip
malformed payloads along the way. -/
def serialPops : Nat → List RawPayload → List ConnectionEvent × List RawPayload
  | 0, q => ([], q)
  | n + 1, q =>
    match rPop q with
    | (none, q') => ([], q')
    | (some raw, q') =>
      let (rest, q'') := serialPops n q'
      match parseTransaction raw with
      | Except.ok e => (e :: rest, q'')
      | Except.error _ => (rest, q'')

/-- `popBatch` of `redis-client.ts`; `pipelineOk = false` models a failed
pipeline `exec`, in which case the serial fallback runs. -/
def popBatch (pipelineOk : Bool) (q : List RawPayload) (batchSize : Nat) :
    List ConnectionEvent × List RawPayload :=
  if pipelineOk then
    let (rs, q') := pipelinePops batchSize q
    (collectParsed rs, q')
  else serialPops batchSize q

/-! ## Batch planner (`preprocessBatch`) -/

/-- One entry of `batchData.transactionLogs`. -/
structure LogEntry where
  userName : String
  type : String
  data : ConnectionEvent
deriving DecidableEq, Repr

/-- `BatchData` of `database-client.ts`; `newUsers` is a JS `Set`,
modelled as an insertion-ordered duplicate-free list. -/
structure BatchData where
  newUsers : List String
  referrals : List (String × String)
  friendships : List (String × String)
  unfriendships : List (String × String)
  transactionLogs : List LogEntry
deriving DecidableEq, Repr

/-- `Set.add`. -/
def setAdd (s : List String) (x : String) : List String :=
  if x ∈ s then s else s ++ [x]

/-- The empty `BatchData` accumulator. -/
def emptyBatchData : BatchData :=
  { newUsers := [], referrals := [], friendships := [], unfriendships := [],
    transactionLogs := [] }

/-- One iteration of the `preprocessBatch` switch. -/
def preprocessStep (bd : BatchData) : ConnectionEvent → BatchData
  | ConnectionEvent.register name =>
    { bd with newUsers := setAdd bd.newUsers name,
              transactionLogs := bd.transactionLogs ++
                [⟨name, "register", ConnectionEvent.register name⟩] }
  | ConnectionEvent.referral referredBy user =>
    { bd with newUsers := setAdd (setAdd bd.newUsers user) referredBy,
              referrals := bd.referrals ++ [(referredBy, user)],
              transactionLogs := bd.transactionLogs ++
                [⟨user, "referral", ConnectionEvent.referral referredBy user⟩] }
  | ConnectionEvent.addfriend u1 u2 =>
    { bd with newUsers := setAdd (setAdd bd.newUsers u1) u2,
              friendships := bd.friendships ++ [(u1, u2)],
              transactionLogs := bd.transactionLogs ++
                [⟨u1, "addfriend", ConnectionEvent.addfriend u1 u2⟩] }
  | ConnectionEvent.unfriend u1 u2 =>
    { bd with newUsers := setAdd (setAdd bd.newUsers u1) u2,
              unfriendships := bd.unfriendships ++ [(u1, u2)],
              transactionLogs := bd.transactionLogs ++
                [⟨u1, "unfriend", ConnectionEvent.unfriend u1 u2⟩] }

/-- `preprocessBatch` of `database-client.ts`. -/
def preprocessBatch (transactions : List ConnectionEvent) : BatchData :=
  transactions.foldl preprocessStep emptyBatchData

/-! ## Store model and the projection transaction -/

/-- `FriendshipStatus` of the Prisma schema. -/
inductive FriendStatus
  | ACTIVE
  | INACTIVE
deriving DecidableEq, Repr

/-- One `friendships` row (ids and status; timestamps are outside the
model). -/
structure FriendshipRow where
  user1Id : Nat
  user2Id : Nat
  status : FriendStatus
deriving DecidableEq, Repr

/-- One `transaction_logs` row. -/
structure LogRow where
  userId : Nat
  transactionType : String
  transactionData : ConnectionEvent
deriving DecidableEq, Repr

/-- The store tables written inside the projection transaction. -/
structure Store where
  friendships : List FriendshipRow
  referrals : List (Nat × Nat)
  logs : List LogRow
deriving DecidableEq, Repr

/-- The store with no rows. -/
def emptyStore : Store := { friendships := [], referrals := [], logs := [] }

/-- `userMap.get`: association-list lookup (JS `Map` keys are unique). -/
def lookupId : List (String × Nat) → String → Option Nat
  | [], _ => none
  | (k, v) :: rest, name => if k = name then some v else lookupId rest name

/-- `Map.set`: update the binding in place or append it. -/
def mapSet (m : List (String × Nat)) (k : String) (v : Nat) : List (String × Nat) :=
  if m.any (fun kv => kv.1 = k) then
    m.map (fun kv => if kv.1 = k then (kv.1, v) else kv)
  else m ++ [(k, v)]

/-- The canonical ordering applied before persisting a pair:
`user1Id < user2Id ? [user1Id, user2Id] : [user2Id, user1Id]`. -/
def canonPair (u1 u2 : Nat) : Nat × Nat :=
  if u1 < u2 then (u1, u2) else (u2, u1)

/-- Row matching on the `(user1_id, user2_id)` key. -/
def matchesPair (r : FriendshipRow) (p : Nat × Nat) : Bool :=
  r.user1Id = p.1 && r.user2Id = p.2

/-- `createMany` with `skipDuplicates` on `referrals`: one row inserted
per pair not already present. -/
def insertReferral (rs : List (Nat × Nat)) (p : Nat × Nat) : List (Nat × Nat) :=
  if p ∈ rs then rs else rs ++ [p]

/-- The friendship upsert keyed on `(user1_id, user2_id)`: on conflict set
`status = ACTIVE`, otherwise insert an `ACTIVE` row. -/
def upsertFriendship (fs : List FriendshipRow) (p : Nat × Nat) : List FriendshipRow :=
  if fs.any (fun r => matchesPair r p) then
    fs.map (fun r => if matchesPair r p then { r with status := FriendStatus.ACTIVE } else r)
  else fs ++ [⟨p.1, p.2, FriendStatus.ACTIVE⟩]

/-- The unfriend bulk update: `SET status = INACTIVE WHERE user1_id = p.1
AND user2_id = p.2 AND status = ACTIVE`. -/
def applyUnfriend (fs : List FriendshipRow) (p : Nat × Nat) : List FriendshipRow :=
  fs.map (fun r =>
    if matchesPair r p && r.status = FriendStatus.ACTIVE then
      { r with status := FriendStatus.INACTIVE }
    else r)

/-- Resolution of a referral edge: direct lookups, no reordering. -/
def resolveReferral (um : List (String × Nat)) (p : String × String) : Option (Nat × Nat) := do
  let i ← lookupId um p.1
  let j ← lookupId um p.2
  pure (i, j)

/-- Resolution of a friendship / unfriendship pair: lookups followed by
canonical reordering. -/
def resolveFriendPair (um : List (String × Nat)) (p : String × String) : Option (Nat × Nat) := do
  let i ← lookupId um p.1
  let j ← lookupId um p.2
  pure (canonPair i j)

/-- Resolution of one transaction-log record (`userId` from the map). -/
def resolveLog (um : List (String × Nat)) (l : LogEntry) : Option LogRow :=
  (lookupId um l.userName).map (fun i => ⟨i, l.type, l.data⟩)

/-- Isolation levels relevant to the worker. -/
inductive IsolationLevel
  | ReadCommitted
  | Serializable
deriving DecidableEq, Repr

/-- The options literal passed to `$transaction`. -/
structure TransactionOptions where
  timeout : Nat
  isolationLevel : IsolationLevel
deriving DecidableEq, Repr

/-- The options the projector passes: `timeout: 60000`,
`isolationLevel: "ReadCommitted"`. -/
def processBatchTxOptions : TransactionOptions :=
  { timeout := 60000, isolationLevel := IsolationLevel.ReadCommitted }

/-- Elementwise resolution of a whole list; `none` as soon as one
element fails to resolve. -/
def resolveList (f : α → Option β) : List α → Option (List β)
  | [] => some []
  | x :: rest =>
    match f x, resolveList f rest with
    | some y, some ys => some (y :: ys)
    | _, _ => none

/-- The body of the single `$transaction` of `processBatch`: referrals,
then friendship upserts, then unfriend updates, then log inserts, each
list applied in input order. `none` models a failing non-null assertion
(`userMap.get(...)!` finding no id). -/
def runTransaction (um : List (String × Nat)) (bd : BatchData) (s : Store) :
    Option Store := do
  let referralData ← resolveList (resolveReferral um) bd.referrals
  let friendshipData ← resolveList (resolveFriendPair um) bd.friendships
  let unfriendshipData ← resolveList (resolveFriendPair um) bd.unfriendships
  let logData ← resolveList (resolveLog um) bd.transactionLogs
  pure { friendships :=
           unfriendshipData.foldl applyUnfriend
             (friendshipData.foldl upsertFriendship s.friendships),
         referrals := referralData.foldl insertReferral s.referrals,
         logs := s.logs ++ logData }

/-- `processBatch` with the user map already resolved: empty batches are
a no-op, otherwise plan and run the single transaction. -/
def processBatch (um : List (String × Nat)) (transactions : List ConnectionEvent)
    (s : Store) : Option Store :=
  if transactions.isEmpty then some s
  else runTransaction um (preprocessBatch transactions) s

/-! ## Worker scheduler chunking (`worker.ts`) -/

/-- `chunkArray` of `worker.ts`: contiguous slices of `chunkSize`
elements. The worker only calls it with a positive `chunkSize`; the
`chunkSize = 0` guard makes the model total. -/
def chunkArray (l : List α) (chunkSize : Nat) : List (List α) :=
  if hne : l.isEmpty then []
  else if h : chunkSize = 0 then []
  else l.take chunkSize :: chunkArray (l.drop chunkSize) chunkSize
termination_by l.length
decreasing_by
  simp only [List.length_drop]
  have hl : l.length ≠ 0 := by
    simpa [List.isEmpty_iff_length_eq_zero] using hne
  omega

/-- `Math.min(5000, Math.ceil(transactions.length / 4))`. -/
def workerChunkSize (n : Nat) : Nat :=
  min 5000 ((n + 3) / 4)

/-- The chunks a popped batch is split into by `workerProcess`. -/
def workerChunks (transactions : List ConnectionEvent) : List (List ConnectionEvent) :=
  chunkArray transactions (workerChunkSize transactions.length)

/-- The number of `processBatch` calls — hence store transactions — the
worker issues for a non-empty popped batch: one per chunk when there is
more than one chunk, otherwise a single call on the whole batch. -/
def transactionsIssued (transactions : List ConnectionEvent) : Nat :=
  let chunks := workerChunks transactions
  if chunks.length > 1 then chunks.length else 1

/-! ## Identity cache and safe user creation (`database-client.ts`) -/

/-- The mutable state `createUserSafely` and `ensureUsersExist` act on:
the `users` table rows `(name, id)`, the next serial id the database
would assign, and the in-process `userCache`. -/
structure WorkerDb where
  users : List (String × Nat)
  nextId : Nat
  cache : List (String × Nat)
  store : Store
deriving DecidableEq, Repr

/-- `userCache.get`. -/
def cacheGet (c : List (String × Nat)) (name : String) : Option Nat :=
  lookupId c name

/-- `prisma.user.findUnique({ where: { name } })`. -/
def dbFindUnique (users : List (String × Nat)) (name : String) : Option Nat :=
  lookupId users name

/-- `createUserSafely`, sequential semantics: attempt the insert; a name
already present raises the unique violation `P2002`, which is absorbed by
`findUnique`; either way the cache learns the id. -/
def createUserSafely (st : WorkerDb) (name : String) : Nat × WorkerDb :=
  match dbFindUnique st.users name with
  | some i => (i, { st with cache := mapSet st.cache name i })
  | none =>
    let i := st.nextId
    (i, { st with users := st.users ++ [(name, i)],
                  nextId := st.nextId + 1,
                  cache := mapSet st.cache name i })

/-- Phase 1 of `ensureUsersExist`: split the requested names into cache
hits (entered into the result map) and misses (queued for creation).
`if (cachedUserId)` is a JS truthiness test, so a cached `0` counts as a
miss. -/
def splitCachedAux (cache : List (String × Nat)) :
    List String → List (String × Nat) → List String →
    List (String × Nat) × List String
  | [], m, toCreate => (m, toCreate)
  | n :: rest, m, toCreate =>
    match cacheGet cache n with
    | some i =>
      if i ≠ 0 then splitCachedAux cache rest (mapSet m n i) toCreate
      else splitCachedAux cache rest m (toCreate ++ [n])
    | none => splitCachedAux cache rest m (toCreate ++ [n])

/-- Phase 2 of `ensureUsersExist`: create the misses (sequential
semantics of the `Promise.all` over `createUserSafely`), collecting
`(name, id)` results in order. -/
def createUsersAux (st : WorkerDb) :
    List String → List (String × Nat) → List (String × Nat) × WorkerDb
  | [], acc => (acc, st)
  | n :: rest, acc =>
    let (i, st') := createUserSafely st n
    createUsersAux st' rest (acc ++ [(n, i)])

/-- `ensureUsersExist` of `database-client.ts`. -/
def ensureUsersExist (st : WorkerDb) (userNames : List String) :
    List (String × Nat) × WorkerDb :=
  let (userMap0, usersToCreate) := splitCachedAux st.cache userNames [] []
  let (created, st') := createUsersAux st usersToCreate []
  (created.foldl (fun m kv => mapSet m kv.1 kv.2) userMap0, st')

/-- One full `processBatch` call including user resolution: plan the
batch, ensure its users exist, then run the store transaction. -/
def projectBatch (st : WorkerDb) (transactions : List ConnectionEvent) :
    Option WorkerDb :=
  if transactions.isEmpty then some st
  else
    let bd := preprocessBatch transactions
    let (userMap, st') := ensureUsersExist st bd.newUsers
    match runTransaction userMap bd st'.store with
    | some store' => some { st' with store := store' }
    | none => none

/-! ## Deadlock retry (`retryOnDeadlock`) -/

/-- Character-list prefix test. -/
def isPrefixChars : List Char → List Char → Bool
  | [], _ => true
  | _ :: _, [] => false
  | a :: as, b :: bs => a = b && isPrefixChars as bs

/-- Character-list substring test. -/
def containsChars (needle : List Char) : List Char → Bool
  | [] => isPrefixChars needle []
  | b :: bs => isPrefixChars needle (b :: bs) || containsChars needle bs

/-- `hay.includes(needle)`. -/
def strIncludes (hay needle : String) : Bool :=
  containsChars needle.data hay.data

/-- A database error as the retry logic sees it: an optional message
(`error.message` may be absent) and an optional Prisma error code. -/
structure DbError where
  message : Option String
  code : Option String
deriving DecidableEq, Repr

/-- The deadlock test of `retryOnDeadlock`: `error.message &&
(error.message.includes("deadlock detected") ||
error.message.includes("40P01"))`. -/
def isDeadlockError (e : DbError) : Bool :=
  match e.message with
  | some m => strIncludes m "deadlock detected" || strIncludes m "40P01"
  | none => false

/-- The retry loop of `retryOnDeadlock`, starting at a given attempt
index. `op k` is the outcome of attempt `k`; `jitter k` the value of
`Math.random() * 100` on attempt `k`. Returns the final outcome and the
list of backoff delays slept between attempts. -/
def retryFrom (op : Nat → Except DbError α) (jitter : Nat → Nat)
    (maxRetries attempt : Nat) : Except DbError α × List Nat :=
  match op attempt with
  | Except.ok a => (Except.ok a, [])
  | Except.error e =>
    if h : isDeadlockError e ∧ attempt < maxRetries - 1 then
      let delay := 2 ^ attempt * 100 + jitter attempt
      let (r, ds) := retryFrom op jitter maxRetries (attempt + 1)
      (r, delay :: ds)
    else (Except.error e, [])
termination_by maxRetries - attempt
decreasing_by omega

/-- `retryOnDeadlock` of `database-client.ts`. -/
def retryOnDeadlock (op : Nat → Except DbError α) (jitter : Nat → Nat)
    (maxRetries : Nat) : Except DbError α × List Nat :=
  retryFrom op jitter maxRetries 0

/-- The transaction issue pattern of the `processBatch` variant at
`src/bacefook/apps/worker/src/database-client.ts`: the `$transaction` is
awaited exactly once, with no retry wrapper around it. -/
def processBatchNamedTx (txAttempt : Nat → Except DbError Store) :
    Except DbError Store × List Nat :=
  (txAttempt 0, [])

/-- The transaction issue pattern of the `processBatch` variant in
`src/unnamed/part_013`: the `$transaction` wrapped in `retryOnDeadlock`
with `maxRetries = 5`. -/
def processBatchRetriedTx (txAttempt : Nat → Except DbError Store)
    (jitter : Nat → Nat) : Except DbError Store × List Nat :=
  retryOnDeadlock txAttempt jitter 5

/-- One worker-loop iteration at the queue level: pop a batch, hand the
events to a processing outcome `process`; the queue is never written back
to, whatever the outcome. -/
def workerIteration (q : List RawPayload) (batchSize : Nat)
    (process : List ConnectionEvent → Except DbError Store) :
    List RawPayload × Except DbError Store :=
  let (evts, q') := popBatch true q batchSize
  (q', process evts)

/-! ## Derived notions used in the statements -/

/-- Whether the friendships table has a row keyed on `p`. -/
def containsPair (fs : List FriendshipRow) (p : Nat × Nat) : Bool :=
  fs.any (fun r => matchesPair r p)

/-- The number of rows keyed on `p`. -/
def countPair (fs : List FriendshipRow) (p : Nat × Nat) : Nat :=
  (fs.filter (fun r => matchesPair r p)).length

/-- Whether row `r`'s key occurs in the pair list `ps`. -/
def rowPairMem (r : FriendshipRow) (ps : List (Nat × Nat)) : Bool :=
  ps.any (fun p => matchesPair r p)

/-- The payloads a `popBatch` call removes, in pop order (the queue is
consumed from the tail). -/
def poppedInOrder (q : List RawPayload) (n : Nat) : List RawPayload :=
  (q.drop (q.length - n)).reverse

/-- Ids the PostgreSQL store hands out are positive serials: every stored
user id and the next id to be assigned are nonzero. -/
def PosIds (st : WorkerDb) : Prop :=
  (∀ kv ∈ st.users, kv.2 ≠ 0) ∧ st.nextId ≠ 0

/-- The JS-truthy view of a cache lookup: `if (cachedUserId)` treats a
cached `0` like a miss. -/
def truthyGet (c : List (String × Nat)) (n : String) : Option Nat :=
  match cacheGet c n with
  | some i => if i ≠ 0 then some i else none
  | none => none

/-- All user names referenced anywhere in a `BatchData`. -/
def namesReferenced (bd : BatchData) : List String :=
  bd.referrals.map Prod.fst ++ bd.referrals.map Prod.snd ++
    bd.friendships.map Prod.fst ++ bd.friendships.map Prod.snd ++
    bd.unfriendships.map Prod.fst ++ bd.unfriendships.map Prod.snd ++
    bd.transactionLogs.map LogEntry.userName

/-- Every name a `BatchData` references in one of its operation lists is
a member of its `newUsers` set. -/
def PlanOk (bd : BatchData) : Prop :=
  (∀ p ∈ bd.referrals, p.1 ∈ bd.newUsers ∧ p.2 ∈ bd.newUsers) ∧
  (∀ p ∈ bd.friendships, p.1 ∈ bd.newUsers ∧ p.2 ∈ bd.newUsers) ∧
  (∀ p ∈ bd.unfriendships, p.1 ∈ bd.newUsers ∧ p.2 ∈ bd.newUsers) ∧
  (∀ l ∈ bd.transactionLogs, l.userName ∈ bd.newUsers)

/-! ## Association-list and set helper lemmas -/

theorem lookupId_isSome_iff_any (m : List (String × Nat)) (k : String) :
    (lookupId m k).isSome = m.any (fun kv => kv.1 = k) := by
  induction m with
  | nil => rfl
  | cons kv rest ih =>
    by_cases h : kv.1 = k <;> simp [lookupId, h, ih]

theorem lookupId_append (m m' : List (String × Nat)) (k : String) :
    lookupId (m ++ m') k =
      match lookupId m k with
      | some v => some v
      | none => lookupId m' k := by
  induction m with
  | nil => rfl
  | cons kv rest ih =>
    by_cases h : kv.1 = k <;> simp [lookupId, h, ih]

theorem lookupId_map_update (m : List (String × Nat)) (k : String) (v : Nat) :
    lookupId (m.map (fun kv => if kv.1 = k then (kv.1, v) else kv)) k =
      if m.any (fun kv => kv.1 = k) then some v else none := by
  induction m with
  | nil => rfl
  | cons kv rest ih =>
    by_cases h : kv.1 = k
    · rw [List.map_cons, if_pos h]
      simp [lookupId, h]
    · rw [List.map_cons, if_neg h]
      have hd : decide (kv.1 = k) = false := by simp [h]
      simp only [lookupId, List.any_cons, hd, Bool.false_or]
      rw [if_neg h]
      exact ih

theorem lookupId_map_update_ne (m : List (String × Nat)) (k k' : String) (v : Nat)
    (h : k' ≠ k) :
    lookupId (m.map (fun kv => if kv.1 = k then (kv.1, v) else kv)) k' =
      lookupId m k' := by
  induction m with
  | nil => rfl
  | cons kv rest ih =>
    by_cases hk : kv.1 = k
    · have hkk : kv.1 ≠ k' := by rw [hk]; exact Ne.symm h
      rw [List.map_cons, if_pos hk]
      simp only [lookupId]
      rw [if_neg hkk, if_neg hkk]
      exact ih
    · rw [List.map_cons, if_neg hk]
      simp only [lookupId]
      by_cases hk' : kv.1 = k'
      · rw [if_pos hk', if_pos hk']
      · rw [if_neg hk', if_neg hk']
        exact ih

theorem lookupId_mapSet_self (m : List (String × Nat)) (k : String) (v : Nat) :
    lookupId (mapSet m k v) k = some v := by
  unfold mapSet
  by_cases h : m.any (fun kv => kv.1 = k)
  · rw [if_pos h]
    rw [lookupId_map_update, if_pos h]
  · rw [if_neg h]
    have hnone : lookupId m k = none := by
      have hiff := lookupId_isSome_iff_any m k
      cases hl : lookupId m k with
      | none => rfl
      | some v' =>
        rw [hl] at hiff
        simp only [Option.isSome_some] at hiff
        exact absurd hiff.symm h
    rw [lookupId_append, hnone]
    simp [lookupId]

theorem lookupId_mapSet_ne (m : List (String × Nat)) (k k' : String) (v : Nat)
    (h : k' ≠ k) : lookupId (mapSet m k v) k' = lookupId m k' := by
  unfold mapSet
  by_cases hm : m.any (fun kv => kv.1 = k)
  · rw [if_pos hm]
    exact lookupId_map_update_ne m k k' v h
  · rw [if_neg hm]
    rw [lookupId_append]
    cases hlk : lookupId m k' with
    | some v' => rfl
    | none => simp [lookupId, Ne.symm h]

theorem mem_setAdd_iff (s : List String) (x y : String) :
    y ∈ setAdd s x ↔ y ∈ s ∨ y = x := by
  unfold setAdd
  by_cases h : x ∈ s
  · simp only [h, if_true]
    constructor
    · exact Or.inl
    · rintro (hy | rfl) <;> [exact hy; exact h]
  · simp [h]

theorem mem_setAdd_self (s : List String) (x : String) : x ∈ setAdd s x := by
  rw [mem_setAdd_iff]; exact Or.inr rfl

theorem mem_setAdd_of_mem (s : List String) (x y : String) (h : y ∈ s) :
    y ∈ setAdd s x := by
  rw [mem_setAdd_iff]; exact Or.inl h

/-! ## resolveList lemmas -/

theorem resolveList_isSome {f : α → Option β} {l : List α}
    (h : ∀ x ∈ l, (f x).isSome) : ∃ ys, resolveList f l = some ys := by
  induction l with
  | nil => exact ⟨[], rfl⟩
  | cons x rest ih =>
    obtain ⟨ys, hys⟩ := ih (fun z hz => h z (List.mem_cons_of_mem _ hz))
    obtain ⟨y, hy⟩ := Option.isSome_iff_exists.mp (h x (List.mem_cons_self _ _))
    exact ⟨y :: ys, by simp [resolveList, hy, hys]⟩

theorem resolveList_congr {f g : α → Option β} {l : List α}
    (h : ∀ x ∈ l, f x = g x) : resolveList f l = resolveList g l := by
  induction l with
  | nil => rfl
  | cons x rest ih =>
    simp only [resolveList, h x (List.mem_cons_self _ _),
      ih (fun z hz => h z (List.mem_cons_of_mem _ hz))]

theorem resolveList_length {f : α → Option β} {l : List α} {ys : List β}
    (h : resolveList f l = some ys) : ys.length = l.length := by
  induction l generalizing ys with
  | nil => simp [resolveList] at h; simp [← h]
  | cons x rest ih =>
    simp only [resolveList] at h
    cases hfx : f x with
    | none => rw [hfx] at h; simp at h
    | some y =>
      rw [hfx] at h
      cases hrest : resolveList f rest with
      | none => rw [hrest] at h; simp at h
      | some ys' =>
        rw [hrest] at h
        simp only [Option.some.injEq] at h
        subst h
        simp [ih hrest]

theorem resolveList_mem {f : α → Option β} {l : List α} {ys : List β} {x : α} {y : β}
    (h : resolveList f l = some ys) (hx : x ∈ l) (hfx : f x = some y) : y ∈ ys := by
  induction l generalizing ys with
  | nil => simp at hx
  | cons z rest ih =>
    simp only [resolveList] at h
    cases hfz : f z with
    | none => rw [hfz] at h; simp at h
    | some w =>
      rw [hfz] at h
      cases hrest : resolveList f rest with
      | none => rw [hrest] at h; simp at h
      | some ws =>
        rw [hrest] at h
        simp only [Option.some.injEq] at h
        subst h
        rcases List.mem_cons.mp hx with rfl | hx'
        · rw [hfz] at hfx
          simp only [Option.some.injEq] at hfx
          subst hfx
          exact List.mem_cons_self _ _
        · exact List.mem_cons_of_mem _ (ih hrest hx')

/-! ## Batch planner lemmas -/

theorem preprocessStep_newUsers_mono (bd : BatchData) (e : ConnectionEvent)
    (n : String) (h : n ∈ bd.newUsers) : n ∈ (preprocessStep bd e).newUsers := by
  cases e with
  | register name => exact mem_setAdd_of_mem _ _ _ h
  | referral rb u => exact mem_setAdd_of_mem _ _ _ (mem_setAdd_of_mem _ _ _ h)
  | addfriend a b => exact mem_setAdd_of_mem _ _ _ (mem_setAdd_of_mem _ _ _ h)
  | unfriend a b => exact mem_setAdd_of_mem _ _ _ (mem_setAdd_of_mem _ _ _ h)

theorem planOk_step (bd : BatchData) (e : ConnectionEvent) (h : PlanOk bd) :
    PlanOk (preprocessStep bd e) := by
  obtain ⟨hr, hf, hu, hl⟩ := h
  cases e with
  | register name =>
    refine ⟨fun p hp => ?_, fun p hp => ?_, fun p hp => ?_, fun l hl' => ?_⟩
    · exact ⟨mem_setAdd_of_mem _ _ _ (hr p hp).1, mem_setAdd_of_mem _ _ _ (hr p hp).2⟩
    · exact ⟨mem_setAdd_of_mem _ _ _ (hf p hp).1, mem_setAdd_of_mem _ _ _ (hf p hp).2⟩
    · exact ⟨mem_setAdd_of_mem _ _ _ (hu p hp).1, mem_setAdd_of_mem _ _ _ (hu p hp).2⟩
    · rcases List.mem_append.mp hl' with hin | hnew
      · exact mem_setAdd_of_mem _ _ _ (hl l hin)
      · rcases List.mem_singleton.mp hnew with rfl
        exact mem_setAdd_self _ _
  | referral rb u =>
    refine ⟨fun p hp => ?_, fun p hp => ?_, fun p hp => ?_, fun l hl' => ?_⟩
    · rcases List.mem_append.mp hp with hin | hnew
      · exact ⟨mem_setAdd_of_mem _ _ _ (mem_setAdd_of_mem _ _ _ (hr p hin).1),
          mem_setAdd_of_mem _ _ _ (mem_setAdd_of_mem _ _ _ (hr p hin).2)⟩
      · rcases List.mem_singleton.mp hnew with rfl
        exact ⟨mem_setAdd_self _ _,
          mem_setAdd_of_mem _ _ _ (mem_setAdd_self _ _)⟩
    · exact ⟨mem_setAdd_of_mem _ _ _ (mem_setAdd_of_mem _ _ _ (hf p hp).1),
        mem_setAdd_of_mem _ _ _ (mem_setAdd_of_mem _ _ _ (hf p hp).2)⟩
    · exact ⟨mem_setAdd_of_mem _ _ _ (mem_setAdd_of_mem _ _ _ (hu p hp).1),
        mem_setAdd_of_mem _ _ _ (mem_setAdd_of_mem _ _ _ (hu p hp).2)⟩
    · rcases List.mem_append.mp hl' with hin | hnew
      · exact mem_setAdd_of_mem _ _ _ (mem_setAdd_of_mem _ _ _ (hl l hin))
      · rcases List.mem_singleton.mp hnew with rfl
        exact mem_setAdd_of_mem _ _ _ (mem_setAdd_self _ _)
  | addfriend a b =>
    refine ⟨fun p hp => ?_, fun p hp => ?_, fun p hp => ?_, fun l hl' => ?_⟩
    · exact ⟨mem_setAdd_of_mem _ _ _ (mem_setAdd_of_mem _ _ _ (hr p hp).1),
        mem_setAdd_of_mem _ _ _ (mem_setAdd_of_mem _ _ _ (hr p hp).2)⟩
    · rcases List.mem_append.mp hp with hin | hnew
      · exact ⟨mem_setAdd_of_mem _ _ _ (mem_setAdd_of_mem _ _ _ (hf p hin).1),
          mem_setAdd_of_mem _ _ _ (mem_setAdd_of_mem _ _ _ (hf p hin).2)⟩
      · rcases List.mem_singleton.mp hnew with rfl
        exact ⟨mem_setAdd_of_mem _ _ _ (mem_setAdd_self _ _),
          mem_setAdd_self _ _⟩
    · exact ⟨mem_setAdd_of_mem _ _ _ (mem_setAdd_of_mem _ _ _ (hu p hp).1),
        mem_setAdd_of_mem _ _ _ (mem_setAdd_of_mem _ _ _ (hu p hp).2)⟩
    · rcases List.mem_append.mp hl' with hin | hnew
      · exact mem_setAdd_of_mem _ _ _ (mem_setAdd_of_mem _ _ _ (hl l hin))
      · rcases List.mem_singleton.mp hnew with rfl
        exact mem_setAdd_of_mem _ _ _ (mem_setAdd_self _ _)
  | unfriend a b =>
    refine ⟨fun p hp => ?_, fun p hp => ?_, fun p hp => ?_, fun l hl' => ?_⟩
    · exact ⟨mem_setAdd_of_mem _ _ _ (mem_setAdd_of_mem _ _ _ (hr p hp).1),
        mem_setAdd_of_mem _ _ _ (mem_setAdd_of_mem _ _ _ (hr p hp).2)⟩
    · exact ⟨mem_setAdd_of_mem _ _ _ (mem_setAdd_of_mem _ _ _ (hf p hp).1),
        mem_setAdd_of_mem _ _ _ (mem_setAdd_of_mem _ _ _ (hf p hp).2)⟩
    · rcases List.mem_append.mp hp with hin | hnew
      · exact ⟨mem_setAdd_of_mem _ _ _ (mem_setAdd_of_mem _ _ _ (hu p hin).1),
          mem_setAdd_of_mem _ _ _ (mem_setAdd_of_mem _ _ _ (hu p hin).2)⟩
      · rcases List.mem_singleton.mp hnew with rfl
        exact ⟨mem_setAdd_of_mem _ _ _ (mem_setAdd_self _ _),
          mem_setAdd_self _ _⟩
    · rcases List.mem_append.mp hl' with hin | hnew
      · exact mem_setAdd_of_mem _ _ _ (mem_setAdd_of_mem _ _ _ (hl l hin))
      · rcases List.mem_singleton.mp hnew with rfl
        exact mem_setAdd_of_mem _ _ _ (mem_setAdd_self _ _)

theorem planOk_foldl (evts : List ConnectionEvent) (bd : BatchData)
    (h : PlanOk bd) : PlanOk (evts.foldl preprocessStep bd) := by
  induction evts generalizing bd with
  | nil => exact h
  | cons e rest ih => exact ih _ (planOk_step bd e h)

theorem preprocessBatch_planOk (evts : List ConnectionEvent) :
    PlanOk (preprocessBatch evts) := by
  refine planOk_foldl evts emptyBatchData ?_
  refine ⟨fun p hp => ?_, fun p hp => ?_, fun p hp => ?_, fun l hl' => ?_⟩ <;>
    simp [emptyBatchData] at *

theorem preprocess_logs_length (evts : List ConnectionEvent) (bd : BatchData) :
    ((evts.foldl preprocessStep bd).transactionLogs).length =
      bd.transactionLogs.length + evts.length := by
  induction evts generalizing bd with
  | nil => simp
  | cons e rest ih =>
    have hstep : ((preprocessStep bd e).transactionLogs).length =
        bd.transactionLogs.length + 1 := by
      cases e <;> simp [preprocessStep]
    simp only [List.foldl_cons, ih (preprocessStep bd e), hstep, List.length_cons]
    omega

theorem preprocessBatch_logs_length (evts : List ConnectionEvent) :
    (preprocessBatch evts).transactionLogs.length = evts.length := by
  have := preprocess_logs_length evts emptyBatchData
  simpa [preprocessBatch, emptyBatchData] using this

theorem preprocess_friendships_mono (evts : List ConnectionEvent) (bd : BatchData)
    (p : String × String) (h : p ∈ bd.friendships) :
    p ∈ (evts.foldl preprocessStep bd).friendships := by
  induction evts generalizing bd with
  | nil => exact h
  | cons e rest ih =>
    refine ih _ ?_
    cases e <;> simp [preprocessStep, h]

theorem preprocess_unfriendships_mono (evts : List ConnectionEvent) (bd : BatchData)
    (p : String × String) (h : p ∈ bd.unfriendships) :
    p ∈ (evts.foldl preprocessStep bd).unfriendships := by
  induction evts generalizing bd with
  | nil => exact h
  | cons e rest ih =>
    refine ih _ ?_
    cases e <;> simp [preprocessStep, h]

theorem mem_friendships_of_addfriend (evts : List ConnectionEvent) (bd : BatchData)
    (a b : String) (h : ConnectionEvent.addfriend a b ∈ evts) :
    (a, b) ∈ (evts.foldl preprocessStep bd).friendships := by
  induction evts generalizing bd with
  | nil => simp at h
  | cons e rest ih =>
    rcases List.mem_cons.mp h with rfl | h'
    · refine preprocess_friendships_mono rest _ (a, b) ?_
      simp [preprocessStep]
    · exact ih _ h'

theorem mem_unfriendships_of_unfriend (evts : List ConnectionEvent) (bd : BatchData)
    (a b : String) (h : ConnectionEvent.unfriend a b ∈ evts) :
    (a, b) ∈ (evts.foldl preprocessStep bd).unfriendships := by
  induction evts generalizing bd with
  | nil => simp at h
  | cons e rest ih =>
    rcases List.mem_cons.mp h with rfl | h'
    · refine preprocess_unfriendships_mono rest _ (a, b) ?_
      simp [preprocessStep]
    · exact ih _ h'

/-! ## Friendship table lemmas -/

theorem matchesPair_iff (r : FriendshipRow) (p : Nat × Nat) :
    matchesPair r p = true ↔ r.user1Id = p.1 ∧ r.user2Id = p.2 := by
  simp [matchesPair]

theorem matchesPair_setStatus (r : FriendshipRow) (p : Nat × Nat) (s : FriendStatus) :
    matchesPair { r with status := s } p = matchesPair r p := rfl

theorem matchesPair_unique (r : FriendshipRow) (p q : Nat × Nat)
    (hp : matchesPair r p = true) (hq : matchesPair r q = true) : p = q := by
  rw [matchesPair_iff] at hp hq
  obtain ⟨h1, h2⟩ := hp
  obtain ⟨h3, h4⟩ := hq
  exact Prod.ext (h1 ▸ h3) (h2 ▸ h4)

theorem containsPair_map_statusOnly (fs : List FriendshipRow) (p : Nat × Nat)
    (f : FriendshipRow → FriendshipRow)
    (hf : ∀ r, matchesPair (f r) p = matchesPair r p) :
    containsPair (fs.map f) p = containsPair fs p := by
  induction fs with
  | nil => rfl
  | cons r rest ih => simp only [containsPair, List.map_cons, List.any_cons, hf r] at *; rw [ih]

theorem countPair_map_statusOnly (fs : List FriendshipRow) (p : Nat × Nat)
    (f : FriendshipRow → FriendshipRow)
    (hf : ∀ r, matchesPair (f r) p = matchesPair r p) :
    countPair (fs.map f) p = countPair fs p := by
  induction fs with
  | nil => rfl
  | cons r rest ih =>
    simp only [countPair, List.map_cons, List.filter_cons, hf r] at *
    cases hm : matchesPair r p <;> simp [hm, ih]

theorem countPair_append (fs gs : List FriendshipRow) (p : Nat × Nat) :
    countPair (fs ++ gs) p = countPair fs p + countPair gs p := by
  simp [countPair, List.filter_append]

theorem countPair_eq_zero_of_not_contains (fs : List FriendshipRow) (p : Nat × Nat)
    (h : containsPair fs p = false) : countPair fs p = 0 := by
  induction fs with
  | nil => rfl
  | cons r rest ih =>
    simp only [containsPair, List.any_cons, Bool.or_eq_false_iff] at h
    simp only [countPair, List.filter_cons, h.1]
    exact ih (by simp [containsPair, h.2])

theorem countPair_pos_of_contains (fs : List FriendshipRow) (p : Nat × Nat)
    (h : containsPair fs p = true) : 1 ≤ countPair fs p := by
  induction fs with
  | nil => simp [containsPair] at h
  | cons r rest ih =>
    simp only [containsPair, List.any_cons, Bool.or_eq_true] at h
    rcases h with hm | hrest
    · simp [countPair, List.filter_cons, hm]
    · simp only [countPair, List.filter_cons]
      cases hm : matchesPair r p
      · simpa [countPair] using ih (by simpa [containsPair] using hrest)
      · simp [countPair]

theorem containsPair_upsert_self (fs : List FriendshipRow) (p : Nat × Nat) :
    containsPair (upsertFriendship fs p) p = true := by
  unfold upsertFriendship
  by_cases h : fs.any (fun r => matchesPair r p)
  · rw [if_pos h]
    rw [containsPair_map_statusOnly]
    · exact h
    · intro r
      by_cases hm : matchesPair r p <;> simp [hm, matchesPair_setStatus]
  · rw [if_neg h]
    simp [containsPair, matchesPair]

theorem containsPair_upsert_mono (fs : List FriendshipRow) (p q : Nat × Nat)
    (h : containsPair fs q = true) : containsPair (upsertFriendship fs p) q = true := by
  unfold upsertFriendship
  by_cases hc : fs.any (fun r => matchesPair r p)
  · rw [if_pos hc]
    rw [containsPair_map_statusOnly]
    · exact h
    · intro r
      by_cases hm : matchesPair r p <;> simp [hm, matchesPair_setStatus]
  · rw [if_neg hc]
    simp only [containsPair, List.any_append] at *
    simp [h]

theorem containsPair_foldl_upsert_mono (ps : List (Nat × Nat)) (fs : List FriendshipRow)
    (q : Nat × Nat) (h : containsPair fs q = true) :
    containsPair (ps.foldl upsertFriendship fs) q = true := by
  induction ps generalizing fs with
  | nil => exact h
  | cons p rest ih => exact ih _ (containsPair_upsert_mono fs p q h)

theorem containsPair_foldl_upsert_mem (ps : List (Nat × Nat)) (fs : List FriendshipRow)
    (p : Nat × Nat) (h : p ∈ ps) :
    containsPair (ps.foldl upsertFriendship fs) p = true := by
  induction ps generalizing fs with
  | nil => simp at h
  | cons q rest ih =>
    rcases List.mem_cons.mp h with rfl | h'
    · exact containsPair_foldl_upsert_mono rest _ p (containsPair_upsert_self fs p)
    · exact ih _ h'

theorem containsPair_unfriend (fs : List FriendshipRow) (p q : Nat × Nat) :
    containsPair (applyUnfriend fs p) q = containsPair fs q := by
  unfold applyUnfriend
  rw [containsPair_map_statusOnly]
  intro r
  by_cases hm : matchesPair r p && r.status = FriendStatus.ACTIVE <;>
    simp [hm, matchesPair_setStatus]

theorem containsPair_foldl_unfriend (us : List (Nat × Nat)) (fs : List FriendshipRow)
    (q : Nat × Nat) :
    containsPair (us.foldl applyUnfriend fs) q = containsPair fs q := by
  induction us generalizing fs with
  | nil => rfl
  | cons u rest ih => rw [List.foldl_cons, ih, containsPair_unfriend]

theorem matchesPair_activeMap (q p : Nat × Nat) (r : FriendshipRow) :
    matchesPair
      (if matchesPair r q then { r with status := FriendStatus.ACTIVE } else r) p =
      matchesPair r p := by
  by_cases hm : matchesPair r q = true
  · rw [if_pos hm]
    rfl
  · rw [if_neg hm]

theorem matchesPair_inactiveMap (q p : Nat × Nat) (r : FriendshipRow) :
    matchesPair
      (if matchesPair r q && r.status = FriendStatus.ACTIVE
        then { r with status := FriendStatus.INACTIVE } else r) p =
      matchesPair r p := by
  by_cases hm : (matchesPair r q && decide (r.status = FriendStatus.ACTIVE)) = true
  · rw [if_pos hm]
    rfl
  · rw [if_neg hm]

theorem upsert_present_eq_map (fs : List FriendshipRow) (p : Nat × Nat)
    (h : containsPair fs p = true) :
    upsertFriendship fs p =
      fs.map (fun r =>
        if matchesPair r p then { r with status := FriendStatus.ACTIVE } else r) := by
  have h' : (fs.any fun r => matchesPair r p) = true := h
  unfold upsertFriendship
  rw [if_pos h']

theorem rowPairMem_cons (r : FriendshipRow) (p : Nat × Nat) (ps : List (Nat × Nat)) :
    rowPairMem r (p :: ps) = (matchesPair r p || rowPairMem r ps) := by
  simp [rowPairMem]

theorem rowPairMem_setStatus (r : FriendshipRow) (s : FriendStatus)
    (ps : List (Nat × Nat)) :
    rowPairMem { r with status := s } ps = rowPairMem r ps := rfl

theorem rowPairMem_status_irrel (a b : Nat) (s : FriendStatus)
    (ps : List (Nat × Nat)) :
    rowPairMem ⟨a, b, s⟩ ps = rowPairMem ⟨a, b, FriendStatus.ACTIVE⟩ ps := rfl

theorem matchesPair_status_irrel (a b : Nat) (s : FriendStatus) (p : Nat × Nat) :
    matchesPair ⟨a, b, s⟩ p = matchesPair ⟨a, b, FriendStatus.ACTIVE⟩ p := rfl

theorem foldl_upsert_eq_map (ps : List (Nat × Nat)) (fs : List FriendshipRow)
    (h : ∀ p ∈ ps, containsPair fs p = true) :
    ps.foldl upsertFriendship fs =
      fs.map (fun r =>
        if rowPairMem r ps then { r with status := FriendStatus.ACTIVE } else r) := by
  induction ps generalizing fs with
  | nil =>
    have h1 : fs.map (fun r =>
        if rowPairMem r ([] : List (Nat × Nat))
        then { r with status := FriendStatus.ACTIVE } else r) = fs.map (fun r => r) :=
      List.map_congr_left (fun r _ => rfl)
    rw [List.foldl_nil, h1, List.map_id']
  | cons p rest ih =>
    rw [List.foldl_cons, upsert_present_eq_map fs p (h p (List.mem_cons_self _ _))]
    rw [ih]
    · rw [List.map_map]
      refine List.map_congr_left ?_
      intro r hr
      obtain ⟨r1, r2, rs⟩ := r
      simp only [Function.comp]
      by_cases hm : matchesPair ⟨r1, r2, FriendStatus.ACTIVE⟩ p = true <;>
        by_cases hrr : rowPairMem ⟨r1, r2, FriendStatus.ACTIVE⟩ rest = true <;>
        simp [hm, hrr, rowPairMem_cons, rowPairMem_status_irrel,
          matchesPair_status_irrel]
    · intro q hq
      rw [containsPair_map_statusOnly fs q _ (matchesPair_activeMap p q)]
      exact h q (List.mem_cons_of_mem _ hq)

theorem foldl_unfriend_eq_map (us : List (Nat × Nat)) (fs : List FriendshipRow) :
    us.foldl applyUnfriend fs =
      fs.map (fun r =>
        if rowPairMem r us && r.status = FriendStatus.ACTIVE
        then { r with status := FriendStatus.INACTIVE } else r) := by
  induction us generalizing fs with
  | nil =>
    have h1 : fs.map (fun r =>
        if rowPairMem r ([] : List (Nat × Nat)) && r.status = FriendStatus.ACTIVE
        then { r with status := FriendStatus.INACTIVE } else r) = fs.map (fun r => r) :=
      List.map_congr_left (fun r _ => rfl)
    rw [List.foldl_nil, h1, List.map_id']
  | cons u rest ih =>
    rw [List.foldl_cons, ih (applyUnfriend fs u)]
    unfold applyUnfriend
    rw [List.map_map]
    refine List.map_congr_left ?_
    intro r hr
    obtain ⟨r1, r2, rs⟩ := r
    simp only [Function.comp]
    cases rs with
    | INACTIVE => simp
    | ACTIVE =>
      by_cases hm : matchesPair ⟨r1, r2, FriendStatus.ACTIVE⟩ u = true <;>
        by_cases hrr : rowPairMem ⟨r1, r2, FriendStatus.ACTIVE⟩ rest = true <;>
        simp [hm, hrr, rowPairMem_cons, rowPairMem_status_irrel,
          matchesPair_status_irrel]

theorem status_after_unfriends_mem (us : List (Nat × Nat)) (fs : List FriendshipRow)
    (p : Nat × Nat) (r : FriendshipRow) (hp : p ∈ us)
    (hr : r ∈ us.foldl applyUnfriend fs) (hm : matchesPair r p = true) :
    r.status = FriendStatus.INACTIVE := by
  rw [foldl_unfriend_eq_map] at hr
  obtain ⟨r0, hr0, heq⟩ := List.mem_map.mp hr
  by_cases hc : (rowPairMem r0 us && decide (r0.status = FriendStatus.ACTIVE)) = true
  · rw [if_pos hc] at heq
    rw [← heq]
  · rw [if_neg hc] at heq
    subst heq
    have hmem : rowPairMem r0 us = true :=
      List.any_eq_true.mpr ⟨p, hp, hm⟩
    cases hs : r0.status
    · exact absurd (by rw [hmem, hs]; simp) hc
    · rfl

theorem allMatching_active_upsert (fs : List FriendshipRow) (p q : Nat × Nat)
    (h : ∀ r ∈ fs, matchesPair r p = true → r.status = FriendStatus.ACTIVE) :
    ∀ r ∈ upsertFriendship fs q, matchesPair r p = true →
      r.status = FriendStatus.ACTIVE := by
  intro r hr hm
  unfold upsertFriendship at hr
  by_cases hc : fs.any (fun r => matchesPair r q)
  · rw [if_pos hc] at hr
    obtain ⟨r0, hr0, heq⟩ := List.mem_map.mp hr
    by_cases hmq : matchesPair r0 q = true
    · rw [if_pos hmq] at heq
      rw [← heq]
    · rw [if_neg hmq] at heq
      subst heq
      exact h r0 hr0 hm
  · rw [if_neg hc] at hr
    rcases List.mem_append.mp hr with h1 | h2
    · exact h r h1 hm
    · rcases List.mem_singleton.mp h2 with rfl
      rfl

theorem allMatching_active_upsert_self (fs : List FriendshipRow) (p : Nat × Nat) :
    ∀ r ∈ upsertFriendship fs p, matchesPair r p = true →
      r.status = FriendStatus.ACTIVE := by
  intro r hr hm
  unfold upsertFriendship at hr
  by_cases hc : fs.any (fun r => matchesPair r p)
  · rw [if_pos hc] at hr
    obtain ⟨r0, hr0, heq⟩ := List.mem_map.mp hr
    by_cases hmq : matchesPair r0 p = true
    · rw [if_pos hmq] at heq
      rw [← heq]
    · rw [if_neg hmq] at heq
      subst heq
      exact absurd hm hmq
  · rw [if_neg hc] at hr
    rcases List.mem_append.mp hr with h1 | h2
    · exact absurd (List.any_eq_true.mpr ⟨r, h1, hm⟩) hc
    · rcases List.mem_singleton.mp h2 with rfl
      rfl

theorem allMatching_active_foldl (qs : List (Nat × Nat)) (fs : List FriendshipRow)
    (p : Nat × Nat)
    (h : ∀ r ∈ fs, matchesPair r p = true → r.status = FriendStatus.ACTIVE) :
    ∀ r ∈ qs.foldl upsertFriendship fs, matchesPair r p = true →
      r.status = FriendStatus.ACTIVE := by
  induction qs generalizing fs with
  | nil => exact h
  | cons q rest ih =>
    rw [List.foldl_cons]
    exact ih _ (allMatching_active_upsert fs p q h)

theorem status_after_upserts_mem (ps : List (Nat × Nat)) (fs : List FriendshipRow)
    (p : Nat × Nat) (r : FriendshipRow) (hp : p ∈ ps)
    (hr : r ∈ ps.foldl upsertFriendship fs) (hm : matchesPair r p = true) :
    r.status = FriendStatus.ACTIVE := by
  induction ps generalizing fs with
  | nil => simp at hp
  | cons q rest ih =>
    rw [List.foldl_cons] at hr
    rcases List.mem_cons.mp hp with rfl | hp'
    · exact allMatching_active_foldl rest _ p
        (allMatching_active_upsert_self fs p) r hr hm
    · exact ih _ hp' hr

theorem countPair_upsert_le (fs : List FriendshipRow) (p q : Nat × Nat)
    (h : countPair fs p ≤ 1) : countPair (upsertFriendship fs q) p ≤ 1 := by
  unfold upsertFriendship
  by_cases hc : fs.any (fun r => matchesPair r q)
  · rw [if_pos hc, countPair_map_statusOnly fs p _ (matchesPair_activeMap q p)]
    exact h
  · rw [if_neg hc, countPair_append]
    by_cases hm : matchesPair ⟨q.1, q.2, FriendStatus.ACTIVE⟩ p = true
    · have hq : matchesPair ⟨q.1, q.2, FriendStatus.ACTIVE⟩ q = true := by
        simp [matchesPair]
      have hpq : q = p := matchesPair_unique _ q p hq hm
      have h0 : countPair fs p = 0 := by
        rw [← hpq]
        refine countPair_eq_zero_of_not_contains fs q ?_
        simpa [containsPair] using hc
      have h1 : countPair [(⟨q.1, q.2, FriendStatus.ACTIVE⟩ : FriendshipRow)] p = 1 := by
        simp [countPair, List.filter, hm]
      omega
    · have h1 : countPair [(⟨q.1, q.2, FriendStatus.ACTIVE⟩ : FriendshipRow)] p = 0 := by
        simp only [countPair, List.filter]
        rw [Bool.eq_false_iff.mpr hm]
        rfl
      omega

theorem countPair_unfriend (fs : List FriendshipRow) (p q : Nat × Nat) :
    countPair (applyUnfriend fs q) p = countPair fs p := by
  unfold applyUnfriend
  exact countPair_map_statusOnly fs p _ (matchesPair_inactiveMap q p)

theorem countPair_foldl_upsert_le (ps : List (Nat × Nat)) (fs : List FriendshipRow)
    (p : Nat × Nat) (h : countPair fs p ≤ 1) :
    countPair (ps.foldl upsertFriendship fs) p ≤ 1 := by
  induction ps generalizing fs with
  | nil => exact h
  | cons q rest ih => exact ih _ (countPair_upsert_le fs p q h)

theorem countPair_foldl_unfriend (us : List (Nat × Nat)) (fs : List FriendshipRow)
    (p : Nat × Nat) : countPair (us.foldl applyUnfriend fs) p = countPair fs p := by
  induction us generalizing fs with
  | nil => rfl
  | cons u rest ih => rw [List.foldl_cons, ih, countPair_unfriend]

/-! ## Referral table lemmas -/

theorem mem_insertReferral_self (rs : List (Nat × Nat)) (p : Nat × Nat) :
    p ∈ insertReferral rs p := by
  unfold insertReferral
  by_cases h : p ∈ rs
  · rw [if_pos h]; exact h
  · rw [if_neg h]; simp

theorem mem_insertReferral_of_mem (rs : List (Nat × Nat)) (p q : Nat × Nat)
    (h : q ∈ rs) : q ∈ insertReferral rs p := by
  unfold insertReferral
  by_cases hp : p ∈ rs
  · rw [if_pos hp]; exact h
  · rw [if_neg hp]; simp [h]

theorem insertReferral_of_mem (rs : List (Nat × Nat)) (p : Nat × Nat)
    (h : p ∈ rs) : insertReferral rs p = rs := by
  unfold insertReferral
  rw [if_pos h]

theorem mem_foldl_insertReferral_mono (ps : List (Nat × Nat)) (rs : List (Nat × Nat))
    (q : Nat × Nat) (h : q ∈ rs) : q ∈ ps.foldl insertReferral rs := by
  induction ps generalizing rs with
  | nil => exact h
  | cons p rest ih => exact ih _ (mem_insertReferral_of_mem rs p q h)

theorem mem_foldl_insertReferral (ps : List (Nat × Nat)) (rs : List (Nat × Nat))
    (p : Nat × Nat) (h : p ∈ ps) : p ∈ ps.foldl insertReferral rs := by
  induction ps generalizing rs with
  | nil => simp at h
  | cons q rest ih =>
    rcases List.mem_cons.mp h with rfl | h'
    · exact mem_foldl_insertReferral_mono rest _ p (mem_insertReferral_self rs p)
    · exact ih _ h'

theorem foldl_insertReferral_id (ps : List (Nat × Nat)) (rs : List (Nat × Nat))
    (h : ∀ p ∈ ps, p ∈ rs) : ps.foldl insertReferral rs = rs := by
  induction ps with
  | nil => rfl
  | cons p rest ih =>
    rw [List.foldl_cons, insertReferral_of_mem rs p (h p (List.mem_cons_self _ _))]
    exact ih (fun q hq => h q (List.mem_cons_of_mem _ hq))

/-! ## runTransaction characterization -/

theorem runTransaction_eq (um : List (String × Nat)) (bd : BatchData) (s : Store) :
    runTransaction um bd s =
      match resolveList (resolveReferral um) bd.referrals,
            resolveList (resolveFriendPair um) bd.friendships,
            resolveList (resolveFriendPair um) bd.unfriendships,
            resolveList (resolveLog um) bd.transactionLogs with
      | some rd, some fd, some ud, some ld =>
        some { friendships := ud.foldl applyUnfriend (fd.foldl upsertFriendship s.friendships),
               referrals := rd.foldl insertReferral s.referrals,
               logs := s.logs ++ ld }
      | _, _, _, _ => none := by
  unfold runTransaction
  cases resolveList (resolveReferral um) bd.referrals <;>
    cases resolveList (resolveFriendPair um) bd.friendships <;>
    cases resolveList (resolveFriendPair um) bd.unfriendships <;>
    cases resolveList (resolveLog um) bd.transactionLogs <;>
    rfl

theorem resolveList_mem_rev {f : α → Option β} {l : List α} {ys : List β} {y : β}
    (h : resolveList f l = some ys) (hy : y ∈ ys) : ∃ x ∈ l, f x = some y := by
  induction l generalizing ys with
  | nil =>
    simp only [resolveList, Option.some.injEq] at h
    subst h
    simp at hy
  | cons z rest ih =>
    simp only [resolveList] at h
    cases hfz : f z with
    | none => rw [hfz] at h; simp at h
    | some w =>
      rw [hfz] at h
      cases hrest : resolveList f rest with
      | none => rw [hrest] at h; simp at h
      | some ws =>
        rw [hrest] at h
        simp only [Option.some.injEq] at h
        subst h
        rcases List.mem_cons.mp hy with rfl | hy'
        · exact ⟨z, List.mem_cons_self _ _, hfz⟩
        · obtain ⟨x, hx, hfx⟩ := ih hrest hy'
          exact ⟨x, List.mem_cons_of_mem _ hx, hfx⟩

theorem resolveFriendPair_some (um : List (String × Nat)) (a b : String)
    (i j : Nat) (ha : lookupId um a = some i) (hb : lookupId um b = some j) :
    resolveFriendPair um (a, b) = some (canonPair i j) := by
  simp [resolveFriendPair, ha, hb]

theorem resolveReferral_some (um : List (String × Nat)) (a b : String)
    (i j : Nat) (ha : lookupId um a = some i) (hb : lookupId um b = some j) :
    resolveReferral um (a, b) = some (i, j) := by
  simp [resolveReferral, ha, hb]

/-! ## Claim C1 -/

/-- C1 (amended): `processBatch` groups a batch before projecting it and
applies all friendship upserts before all unfriend updates, so input
order between `AddFriend(a,b)` and `Unfriend(a,b)` does not decide the
terminal status: whenever a projected batch contains both, the pair's row
ends `INACTIVE` (not the last operation in input order), there is exactly
one row for the canonical pair, and one transaction-log row per event. -/
theorem c1_grouped_batch_unfriend_wins (evts : List ConnectionEvent)
    (um : List (String × Nat)) (a b : String) (i j : Nat) (s' : Store)
    (ha : lookupId um a = some i) (hb : lookupId um b = some j)
    (hadd : ConnectionEvent.addfriend a b ∈ evts)
    (hunf : ConnectionEvent.unfriend a b ∈ evts)
    (hrun : processBatch um evts emptyStore = some s') :
    countPair s'.friendships (canonPair i j) = 1 ∧
    (∀ r ∈ s'.friendships, matchesPair r (canonPair i j) = true →
      r.status = FriendStatus.INACTIVE) ∧
    s'.logs.length = evts.length := by
  have hne : evts ≠ [] := List.ne_nil_of_mem hadd
  have hpb : runTransaction um (preprocessBatch evts) emptyStore = some s' := by
    unfold processBatch at hrun
    rwa [if_neg (by simpa [List.isEmpty_iff] using hne)] at hrun
  rw [runTransaction_eq] at hpb
  cases hrd : resolveList (resolveReferral um) (preprocessBatch evts).referrals with
  | none => rw [hrd] at hpb; simp at hpb
  | some rd =>
  rw [hrd] at hpb
  cases hfd : resolveList (resolveFriendPair um) (preprocessBatch evts).friendships with
  | none => rw [hfd] at hpb; simp at hpb
  | some fd =>
  rw [hfd] at hpb
  cases hud : resolveList (resolveFriendPair um) (preprocessBatch evts).unfriendships with
  | none => rw [hud] at hpb; simp at hpb
  | some ud =>
  rw [hud] at hpb
  cases hld : resolveList (resolveLog um) (preprocessBatch evts).transactionLogs with
  | none => rw [hld] at hpb; simp at hpb
  | some ld =>
  rw [hld] at hpb
  simp only [Option.some.injEq] at hpb
  subst hpb
  have hmemF : canonPair i j ∈ fd :=
    resolveList_mem hfd (mem_friendships_of_addfriend evts emptyBatchData a b hadd)
      (resolveFriendPair_some um a b i j ha hb)
  have hmemU : canonPair i j ∈ ud :=
    resolveList_mem hud (mem_unfriendships_of_unfriend evts emptyBatchData a b hunf)
      (resolveFriendPair_some um a b i j ha hb)
  refine ⟨?_, ?_, ?_⟩
  · have hle : countPair
        (ud.foldl applyUnfriend (fd.foldl upsertFriendship emptyStore.friendships))
        (canonPair i j) ≤ 1 := by
      rw [countPair_foldl_unfriend]
      exact countPair_foldl_upsert_le fd emptyStore.friendships (canonPair i j)
        (by simp [emptyStore, countPair])
    have hge : 1 ≤ countPair
        (ud.foldl applyUnfriend (fd.foldl upsertFriendship emptyStore.friendships))
        (canonPair i j) := by
      refine countPair_pos_of_contains _ _ ?_
      rw [containsPair_foldl_unfriend]
      exact containsPair_foldl_upsert_mem fd emptyStore.friendships _ hmemF
    exact Nat.le_antisymm hle hge
  · intro r hr hm
    exact status_after_unfriends_mem ud _ (canonPair i j) r hmemU hr hm
  · have hlen := resolveList_length hld
    have hbd := preprocessBatch_logs_length evts
    simp only [emptyStore, List.nil_append, List.length_nil]
    rw [hlen, hbd]

/-- C1 counterexample: projecting the batch
`[AddFriend{a,b}, Unfriend{a,b}, AddFriend{a,b}]` (last operation an
`AddFriend`) onto the empty store leaves the pair `INACTIVE`, not
`ACTIVE` as the claim states. -/
theorem c1_s3_scenario_ends_inactive :
    processBatch [("a", 1), ("b", 2)]
        [ConnectionEvent.addfriend "a" "b", ConnectionEvent.unfriend "a" "b",
         ConnectionEvent.addfriend "a" "b"] emptyStore =
      some { friendships := [⟨1, 2, FriendStatus.INACTIVE⟩],
             referrals := [],
             logs := [⟨1, "addfriend", ConnectionEvent.addfriend "a" "b"⟩,
                      ⟨1, "unfriend", ConnectionEvent.unfriend "a" "b"⟩,
                      ⟨1, "addfriend", ConnectionEvent.addfriend "a" "b"⟩] } ∧
    FriendStatus.INACTIVE ≠ FriendStatus.ACTIVE := by
  exact ⟨rfl, by decide⟩

/-- C1 witness: the amended theorem applied to the S3 batch. -/
theorem c1_grouped_batch_unfriend_wins_witness :
    countPair [(⟨1, 2, FriendStatus.INACTIVE⟩ : FriendshipRow)] (canonPair 1 2) = 1 ∧
    (∀ r ∈ [(⟨1, 2, FriendStatus.INACTIVE⟩ : FriendshipRow)],
      matchesPair r (canonPair 1 2) = true → r.status = FriendStatus.INACTIVE) ∧
    ([(⟨1, "addfriend", ConnectionEvent.addfriend "a" "b"⟩ : LogRow),
      ⟨1, "unfriend", ConnectionEvent.unfriend "a" "b"⟩,
      ⟨1, "addfriend", ConnectionEvent.addfriend "a" "b"⟩] : List LogRow).length =
      ([ConnectionEvent.addfriend "a" "b", ConnectionEvent.unfriend "a" "b",
        ConnectionEvent.addfriend "a" "b"] : List ConnectionEvent).length := by
  exact c1_grouped_batch_unfriend_wins
    [ConnectionEvent.addfriend "a" "b", ConnectionEvent.unfriend "a" "b",
     ConnectionEvent.addfriend "a" "b"]
    [("a", 1), ("b", 2)] "a" "b" 1 2
    { friendships := [⟨1, 2, FriendStatus.INACTIVE⟩], referrals := [],
      logs := [⟨1, "addfriend", ConnectionEvent.addfriend "a" "b"⟩,
               ⟨1, "unfriend", ConnectionEvent.unfriend "a" "b"⟩,
               ⟨1, "addfriend", ConnectionEvent.addfriend "a" "b"⟩] }
    rfl rfl (by simp) (by simp) rfl

/-! ## Claim C2 -/

theorem chunkArray_join_aux (len : Nat) :
    ∀ (l : List α), l.length ≤ len → ∀ n, 0 < n → (chunkArray l n).join = l := by
  induction len with
  | zero =>
    intro l hl n hn
    have : l = [] := List.eq_nil_of_length_eq_zero (Nat.le_zero.mp hl)
    subst this
    rw [chunkArray]
    simp
  | succ m ih =>
    intro l hl n hn
    by_cases he : l.isEmpty
    · rw [chunkArray, dif_pos he]
      have : l = [] := by simpa [List.isEmpty_iff] using he
      simp [this]
    · rw [chunkArray, dif_neg he, dif_neg (by omega)]
      have hlen : (l.drop n).length ≤ m := by
        have h0 : l.length ≠ 0 := by
          simpa [List.isEmpty_iff, List.length_eq_zero] using he
        simp only [List.length_drop]
        omega
      show l.take n ++ (chunkArray (l.drop n) n).join = l
      rw [ih (l.drop n) hlen n hn, List.take_append_drop]

theorem chunkArray_join (l : List α) (n : Nat) (hn : 0 < n) :
    (chunkArray l n).join = l :=
  chunkArray_join_aux l.length l (le_refl _) n hn

theorem chunkArray_ne_nil (l : List α) (n : Nat) (hl : l ≠ []) (hn : 0 < n) :
    chunkArray l n ≠ [] := by
  rw [chunkArray, dif_neg (by simpa [List.isEmpty_iff] using hl), dif_neg (by omega)]
  simp

theorem chunkArray_length_ge_two (l : List α) (n : Nat) (hn : 0 < n)
    (hlt : n < l.length) : 2 ≤ (chunkArray l n).length := by
  have hl : l ≠ [] := by
    intro h
    subst h
    simp at hlt
  rw [chunkArray, dif_neg (by simpa [List.isEmpty_iff] using hl), dif_neg (by omega)]
  have hd : l.drop n ≠ [] := by
    intro h
    have := congrArg List.length h
    simp only [List.length_drop, List.length_nil] at this
    omega
  have := chunkArray_ne_nil (l.drop n) n hd hn
  have hpos : 0 < (chunkArray (l.drop n) n).length :=
    List.length_pos.mpr this
  simp only [List.length_cons]
  omega

theorem workerChunkSize_pos (n : Nat) (hn : 0 < n) : 0 < workerChunkSize n := by
  unfold workerChunkSize
  omega

theorem workerChunkSize_lt (n : Nat) (hn : 2 ≤ n) : workerChunkSize n < n := by
  unfold workerChunkSize
  omega

theorem workerChunks_join (evts : List ConnectionEvent) :
    (workerChunks evts).join = evts := by
  unfold workerChunks
  rcases evts with _ | ⟨e, rest⟩
  · rw [chunkArray]
    simp
  · exact chunkArray_join _ _ (workerChunkSize_pos _ (by simp))

/-- C2 (amended): each `processBatch` call runs as one store transaction
with `timeout = 60000` ms and `READ COMMITTED` isolation, and the events
handed to one call are the chunk in input order; but `workerProcess`
splits every popped batch into chunks of `min(5000, ceil(n/4))` events
processed by parallel `processBatch` calls, so any popped batch of at
least two events is committed in at least two separate transactions
(a single transaction only for single-event batches). -/
theorem c2_chunked_transactions (evts : List ConnectionEvent) :
    processBatchTxOptions =
      { timeout := 60000, isolationLevel := IsolationLevel.ReadCommitted } ∧
    (workerChunks evts).join = evts ∧
    (evts.length = 1 → transactionsIssued evts = 1) ∧
    (2 ≤ evts.length → 2 ≤ transactionsIssued evts) := by
  refine ⟨rfl, workerChunks_join evts, ?_, ?_⟩
  · intro h1
    rcases evts with _ | ⟨e, rest⟩
    · simp at h1
    · have : rest = [] := by
        simpa using List.length_eq_zero.mp (by simpa using h1)
      subst this
      simp [transactionsIssued, workerChunks, workerChunkSize, chunkArray]
  · intro h2
    have hchunks : 2 ≤ (workerChunks evts).length := by
      unfold workerChunks
      exact chunkArray_length_ge_two evts _
        (workerChunkSize_pos _ (by omega)) (workerChunkSize_lt _ h2)
    unfold transactionsIssued
    simp only []
    rw [if_pos (by omega)]
    exact hchunks

/-- C2 counterexample: already a two-event popped batch is split into two
chunks, hence two `processBatch` calls and two store transactions — not
the single transaction per popped batch the claim states. -/
theorem c2_two_event_batch_two_transactions :
    transactionsIssued [ConnectionEvent.register "a", ConnectionEvent.register "b"] = 2 ∧
    (2 : Nat) ≠ 1 := by
  constructor
  · simp [transactionsIssued, workerChunks, workerChunkSize, chunkArray]
  · decide

/-- C2 witness: the amended theorem applied to a concrete one-event and
a concrete two-event batch. -/
theorem c2_chunked_transactions_witness :
    transactionsIssued [ConnectionEvent.register "a"] = 1 ∧
    2 ≤ transactionsIssued [ConnectionEvent.register "a", ConnectionEvent.register "b"] := by
  constructor
  · exact (c2_chunked_transactions [ConnectionEvent.register "a"]).2.2.1 (by simp)
  · exact (c2_chunked_transactions
      [ConnectionEvent.register "a", ConnectionEvent.register "b"]).2.2.2 (by simp)

/-! ## Claim C4 -/

theorem canonPair_eq_min_max (i j : Nat) : canonPair i j = (min i j, max i j) := by
  unfold canonPair
  by_cases h : i < j
  · rw [if_pos h, Nat.min_eq_left (Nat.le_of_lt h), Nat.max_eq_right (Nat.le_of_lt h)]
  · have h' : j ≤ i := Nat.le_of_not_lt h
    rw [if_neg h, Nat.min_eq_right h', Nat.max_eq_left h']

theorem canonPair_le (i j : Nat) : (canonPair i j).1 ≤ (canonPair i j).2 := by
  unfold canonPair
  by_cases hlt : i < j
  · rw [if_pos hlt]
    show i ≤ j
    omega
  · rw [if_neg hlt]
    show j ≤ i
    omega

theorem canonPair_lt (i j : Nat) (h : i ≠ j) :
    (canonPair i j).1 < (canonPair i j).2 := by
  unfold canonPair
  by_cases hlt : i < j
  · rw [if_pos hlt]
    show i < j
    exact hlt
  · rw [if_neg hlt]
    show j < i
    omega

theorem upsert_rows_prop (R : FriendshipRow → Prop) (fs : List FriendshipRow)
    (p : Nat × Nat) (hstat : ∀ r s, R r → R { r with status := s })
    (hall : ∀ r ∈ fs, R r) (hp : R ⟨p.1, p.2, FriendStatus.ACTIVE⟩) :
    ∀ r ∈ upsertFriendship fs p, R r := by
  intro r hr
  unfold upsertFriendship at hr
  by_cases hc : fs.any (fun r => matchesPair r p)
  · rw [if_pos hc] at hr
    obtain ⟨r0, h0, heq⟩ := List.mem_map.mp hr
    by_cases hm : matchesPair r0 p = true
    · rw [if_pos hm] at heq
      rw [← heq]
      exact hstat r0 _ (hall r0 h0)
    · rw [if_neg hm] at heq
      rw [← heq]
      exact hall r0 h0
  · rw [if_neg hc] at hr
    rcases List.mem_append.mp hr with h1 | h2
    · exact hall r h1
    · rcases List.mem_singleton.mp h2 with rfl
      exact hp

theorem foldl_upsert_rows_prop (R : FriendshipRow → Prop) (ps : List (Nat × Nat))
    (fs : List FriendshipRow) (hstat : ∀ r s, R r → R { r with status := s })
    (hall : ∀ r ∈ fs, R r) (hps : ∀ p ∈ ps, R ⟨p.1, p.2, FriendStatus.ACTIVE⟩) :
    ∀ r ∈ ps.foldl upsertFriendship fs, R r := by
  induction ps generalizing fs with
  | nil => exact hall
  | cons p rest ih =>
    rw [List.foldl_cons]
    exact ih _
      (upsert_rows_prop R fs p hstat hall (hps p (List.mem_cons_self _ _)))
      (fun q hq => hps q (List.mem_cons_of_mem _ hq))

theorem unfriend_rows_prop (R : FriendshipRow → Prop) (fs : List FriendshipRow)
    (p : Nat × Nat) (hstat : ∀ r s, R r → R { r with status := s })
    (hall : ∀ r ∈ fs, R r) : ∀ r ∈ applyUnfriend fs p, R r := by
  intro r hr
  unfold applyUnfriend at hr
  obtain ⟨r0, h0, heq⟩ := List.mem_map.mp hr
  by_cases hm : (matchesPair r0 p && decide (r0.status = FriendStatus.ACTIVE)) = true
  · rw [if_pos hm] at heq
    rw [← heq]
    exact hstat r0 _ (hall r0 h0)
  · rw [if_neg hm] at heq
    rw [← heq]
    exact hall r0 h0

theorem foldl_unfriend_rows_prop (R : FriendshipRow → Prop) (us : List (Nat × Nat))
    (fs : List FriendshipRow) (hstat : ∀ r s, R r → R { r with status := s })
    (hall : ∀ r ∈ fs, R r) : ∀ r ∈ us.foldl applyUnfriend fs, R r := by
  induction us generalizing fs with
  | nil => exact hall
  | cons u rest ih =>
    rw [List.foldl_cons]
    exact ih _ (unfriend_rows_prop R fs u hstat hall)

theorem resolveFriendPair_inv (um : List (String × Nat)) (x : String × String)
    (q : Nat × Nat) (h : resolveFriendPair um x = some q) :
    ∃ i j, lookupId um x.1 = some i ∧ lookupId um x.2 = some j ∧
      q = canonPair i j := by
  unfold resolveFriendPair at h
  cases ha : lookupId um x.1 with
  | none => rw [ha] at h; simp at h
  | some i =>
    rw [ha] at h
    cases hb : lookupId um x.2 with
    | none => rw [hb] at h; simp at h
    | some j =>
      rw [hb] at h
      simp at h
      exact ⟨i, j, rfl, rfl, h.symm⟩

/-- C4 (amended): pairs are canonicalized to `(min id, max id)` before
persistence, so every `Friendship` row satisfies `user1_id ≤ user2_id`,
with the strict inequality `user1_id < user2_id` whenever the two
resolved ids of each upserted pair differ; an `AddFriend{a,a}` event (the
two names resolving to the same id) produces a row with
`user1_id = user2_id`, so the unconditional strict claim fails. -/
theorem c4_canonical_ordering (um : List (String × Nat))
    (evts : List ConnectionEvent) (s s' : Store)
    (hinv : ∀ r ∈ s.friendships, r.user1Id ≤ r.user2Id)
    (hrun : processBatch um evts s = some s') :
    (∀ i j : Nat, canonPair i j = (min i j, max i j)) ∧
    (∀ r ∈ s'.friendships, r.user1Id ≤ r.user2Id) ∧
    ((∀ r ∈ s.friendships, r.user1Id < r.user2Id) →
      (∀ p ∈ (preprocessBatch evts).friendships, ∀ i j,
        lookupId um p.1 = some i → lookupId um p.2 = some j → i ≠ j) →
      ∀ r ∈ s'.friendships, r.user1Id < r.user2Id) := by
  refine ⟨canonPair_eq_min_max, ?_, ?_⟩
  all_goals
    unfold processBatch at hrun
  · by_cases he : evts.isEmpty
    · rw [if_pos he] at hrun
      simp only [Option.some.injEq] at hrun
      subst hrun
      exact hinv
    · rw [if_neg he, runTransaction_eq] at hrun
      cases hrd : resolveList (resolveReferral um) (preprocessBatch evts).referrals with
      | none => rw [hrd] at hrun; simp at hrun
      | some rd =>
      rw [hrd] at hrun
      cases hfd : resolveList (resolveFriendPair um) (preprocessBatch evts).friendships with
      | none => rw [hfd] at hrun; simp at hrun
      | some fd =>
      rw [hfd] at hrun
      cases hud : resolveList (resolveFriendPair um) (preprocessBatch evts).unfriendships with
      | none => rw [hud] at hrun; simp at hrun
      | some ud =>
      rw [hud] at hrun
      cases hld : resolveList (resolveLog um) (preprocessBatch evts).transactionLogs with
      | none => rw [hld] at hrun; simp at hrun
      | some ld =>
      rw [hld] at hrun
      simp only [Option.some.injEq] at hrun
      subst hrun
      refine foldl_unfriend_rows_prop _ ud _ (fun r s h => h) ?_
      refine foldl_upsert_rows_prop _ fd s.friendships (fun r s h => h) hinv ?_
      intro q hq
      obtain ⟨x, hx, hfx⟩ := resolveList_mem_rev hfd hq
      obtain ⟨i, j, _, _, rfl⟩ := resolveFriendPair_inv um x q hfx
      exact canonPair_le i j
  · intro hstrict hne
    by_cases he : evts.isEmpty
    · rw [if_pos he] at hrun
      simp only [Option.some.injEq] at hrun
      subst hrun
      exact hstrict
    · rw [if_neg he, runTransaction_eq] at hrun
      cases hrd : resolveList (resolveReferral um) (preprocessBatch evts).referrals with
      | none => rw [hrd] at hrun; simp at hrun
      | some rd =>
      rw [hrd] at hrun
      cases hfd : resolveList (resolveFriendPair um) (preprocessBatch evts).friendships with
      | none => rw [hfd] at hrun; simp at hrun
      | some fd =>
      rw [hfd] at hrun
      cases hud : resolveList (resolveFriendPair um) (preprocessBatch evts).unfriendships with
      | none => rw [hud] at hrun; simp at hrun
      | some ud =>
      rw [hud] at hrun
      cases hld : resolveList (resolveLog um) (preprocessBatch evts).transactionLogs with
      | none => rw [hld] at hrun; simp at hrun
      | some ld =>
      rw [hld] at hrun
      simp only [Option.some.injEq] at hrun
      subst hrun
      refine foldl_unfriend_rows_prop _ ud _ (fun r s h => h) ?_
      refine foldl_upsert_rows_prop _ fd s.friendships (fun r s h => h) hstrict ?_
      intro q hq
      obtain ⟨x, hx, hfx⟩ := resolveList_mem_rev hfd hq
      obtain ⟨i, j, hi, hj, rfl⟩ := resolveFriendPair_inv um x q hfx
      exact canonPair_lt i j (hne x hx i j hi hj)

/-- C4 counterexample: the decoder accepts `AddFriend{a,a}`; projecting it
creates the row `(1, 1, ACTIVE)`, for which `user1_id < user2_id` fails. -/
theorem c4_self_friendship_row :
    processBatch [("a", 1)] [ConnectionEvent.addfriend "a" "a"] emptyStore =
      some { friendships := [⟨1, 1, FriendStatus.ACTIVE⟩], referrals := [],
             logs := [⟨1, "addfriend", ConnectionEvent.addfriend "a" "a"⟩] } ∧
    ¬(1 : Nat) < 1 := by
  exact ⟨rfl, by omega⟩

/-- C4 witness: the amended theorem applied to a concrete batch. -/
theorem c4_canonical_ordering_witness :
    (∀ i j : Nat, canonPair i j = (min i j, max i j)) ∧
    (∀ r ∈ (Store.mk [⟨2, 5, FriendStatus.ACTIVE⟩] []
        [⟨5, "addfriend", ConnectionEvent.addfriend "b" "a"⟩]).friendships,
      r.user1Id ≤ r.user2Id) ∧
    ((∀ r ∈ (emptyStore : Store).friendships, r.user1Id < r.user2Id) →
      (∀ p ∈ (preprocessBatch [ConnectionEvent.addfriend "b" "a"]).friendships,
        ∀ i j, lookupId [("a", 2), ("b", 5)] p.1 = some i →
          lookupId [("a", 2), ("b", 5)] p.2 = some j → i ≠ j) →
      ∀ r ∈ (Store.mk [⟨2, 5, FriendStatus.ACTIVE⟩] []
          [⟨5, "addfriend", ConnectionEvent.addfriend "b" "a"⟩]).friendships,
        r.user1Id < r.user2Id) := by
  exact c4_canonical_ordering [("a", 2), ("b", 5)]
    [ConnectionEvent.addfriend "b" "a"] emptyStore
    (Store.mk [⟨2, 5, FriendStatus.ACTIVE⟩] []
      [⟨5, "addfriend", ConnectionEvent.addfriend "b" "a"⟩])
    (by simp [emptyStore]) rfl

/-! ## Claim C6 -/

/-- C6: the unfriend update sets `status = INACTIVE` exactly on rows
whose `(user1_id, user2_id)` equals the canonically reordered resolved
pair and whose current status is `ACTIVE`; non-matching rows and
already-`INACTIVE` rows are returned unchanged, and when no row matches,
the friendships table is unchanged. Pairs reach this update only through
`resolveFriendPair`, which canonicalizes after id resolution. -/
theorem c6_unfriend_guarded_update (fs : List FriendshipRow) (p : Nat × Nat) :
    (∀ r ∈ fs, matchesPair r p = true → r.status = FriendStatus.ACTIVE →
      (⟨r.user1Id, r.user2Id, FriendStatus.INACTIVE⟩ : FriendshipRow) ∈
        applyUnfriend fs p) ∧
    (∀ r ∈ fs, matchesPair r p = false → r ∈ applyUnfriend fs p) ∧
    (∀ r ∈ fs, r.status = FriendStatus.INACTIVE → r ∈ applyUnfriend fs p) ∧
    ((∀ r ∈ fs, matchesPair r p = false) → applyUnfriend fs p = fs) ∧
    (∀ um (a b : String) (i j : Nat), lookupId um a = some i →
      lookupId um b = some j →
      resolveFriendPair um (a, b) = some (canonPair i j)) := by
  refine ⟨?_, ?_, ?_, ?_, ?_⟩
  · intro r hr hm hs
    unfold applyUnfriend
    refine List.mem_map.mpr ⟨r, hr, ?_⟩
    rw [if_pos (by rw [hm, hs]; simp)]
  · intro r hr hm
    unfold applyUnfriend
    refine List.mem_map.mpr ⟨r, hr, ?_⟩
    rw [if_neg (by rw [hm]; simp)]
  · intro r hr hs
    unfold applyUnfriend
    refine List.mem_map.mpr ⟨r, hr, ?_⟩
    rw [if_neg (by rw [hs]; simp)]
  · intro hall
    unfold applyUnfriend
    have hmap : fs.map (fun r =>
        if matchesPair r p && r.status = FriendStatus.ACTIVE
        then { r with status := FriendStatus.INACTIVE } else r) = fs.map (fun r => r) :=
      List.map_congr_left (fun r hr => by rw [if_neg (by rw [hall r hr]; simp)])
    rw [hmap, List.map_id']
  · intro um a b i j ha hb
    exact resolveFriendPair_some um a b i j ha hb

/-- C6 witness: the guarded update applied to a concrete table. -/
theorem c6_unfriend_guarded_update_witness :
    (⟨1, 2, FriendStatus.INACTIVE⟩ : FriendshipRow) ∈
      applyUnfriend [⟨1, 2, FriendStatus.ACTIVE⟩, ⟨3, 4, FriendStatus.INACTIVE⟩] (1, 2) ∧
    (⟨3, 4, FriendStatus.INACTIVE⟩ : FriendshipRow) ∈
      applyUnfriend [⟨1, 2, FriendStatus.ACTIVE⟩, ⟨3, 4, FriendStatus.INACTIVE⟩] (1, 2) ∧
    applyUnfriend [⟨3, 4, FriendStatus.ACTIVE⟩] (1, 2) = [⟨3, 4, FriendStatus.ACTIVE⟩] ∧
    resolveFriendPair [("a", 9), ("b", 4)] ("a", "b") = some (canonPair 9 4) := by
  refine ⟨?_, ?_, ?_, ?_⟩
  · exact (c6_unfriend_guarded_update
      [⟨1, 2, FriendStatus.ACTIVE⟩, ⟨3, 4, FriendStatus.INACTIVE⟩] (1, 2)).1
      ⟨1, 2, FriendStatus.ACTIVE⟩ (by simp) (by decide) rfl
  · exact (c6_unfriend_guarded_update
      [⟨1, 2, FriendStatus.ACTIVE⟩, ⟨3, 4, FriendStatus.INACTIVE⟩] (1, 2)).2.2.1
      ⟨3, 4, FriendStatus.INACTIVE⟩ (by simp) rfl
  · refine (c6_unfriend_guarded_update [⟨3, 4, FriendStatus.ACTIVE⟩] (1, 2)).2.2.2.1 ?_
    intro r hr
    rcases List.mem_singleton.mp hr with rfl
    decide
  · exact (c6_unfriend_guarded_update [] (0, 0)).2.2.2.2
      [("a", 9), ("b", 4)] "a" "b" 9 4 rfl rfl

/-! ## Queue adapter lemmas -/

theorem rPop_concat (l : List RawPayload) (x : RawPayload) :
    rPop (l ++ [x]) = (some x, l) := by
  unfold rPop
  rw [List.getLast?_concat, List.dropLast_concat]

theorem rPop_nil : rPop [] = (none, []) := rfl

theorem pipelinePops_queue (n : Nat) :
    ∀ q : List RawPayload, (pipelinePops n q).2 = q.take (q.length - n) := by
  induction n with
  | zero =>
    intro q
    simp [pipelinePops]
  | succ m ih =>
    intro q
    rcases List.eq_nil_or_concat q with rfl | ⟨l, x, rfl⟩
    · simp [pipelinePops, rPop_nil, ih]
    · simp only [List.concat_eq_append, pipelinePops, rPop_concat, ih l]
      rw [List.take_append_of_le_length (by simp)]
      congr 1
      simp only [List.length_append, List.length_singleton]
      omega

theorem pipelinePops_results (n : Nat) :
    ∀ q : List RawPayload,
      (pipelinePops n q).1 =
        (q.drop (q.length - n)).reverse.map some ++
          List.replicate (n - q.length) none := by
  induction n with
  | zero =>
    intro q
    simp [pipelinePops]
  | succ m ih =>
    intro q
    rcases List.eq_nil_or_concat q with rfl | ⟨l, x, rfl⟩
    · simp [pipelinePops, rPop_nil, ih, List.replicate_succ]
    · simp only [List.concat_eq_append, pipelinePops, rPop_concat, ih l]
      have hlen : (l ++ [x]).length = l.length + 1 := by simp
      rw [hlen]
      have hidx : l.length + 1 - (m + 1) = l.length - m := by omega
      rw [hidx]
      rw [List.drop_append_of_le_length (by omega)]
      rw [List.reverse_append]
      simp only [List.reverse_cons, List.reverse_nil, List.nil_append,
        List.map_cons, List.singleton_append, List.cons_append]
      have hrep : m + 1 - (l.length + 1) = m - l.length := by omega
      rw [hrep]

theorem collectParsed_replicate (k : Nat) :
    collectParsed (List.replicate k none) = [] := by
  induction k with
  | zero => rfl
  | succ m ih => simpa [List.replicate_succ, collectParsed] using ih

theorem collectParsed_eq_filterMap (xs : List RawPayload) (k : Nat) :
    collectParsed (xs.map some ++ List.replicate k none) =
      xs.filterMap (fun r => (parseTransaction r).toOption) := by
  induction xs with
  | nil => simpa using collectParsed_replicate k
  | cons raw rest ih =>
    cases hp : parseTransaction raw with
    | ok e =>
      simp only [List.map_cons, List.cons_append, collectParsed, hp,
        List.filterMap_cons, List.append_eq]
      rw [ih]
      simp [Except.toOption, hp]
    | error msg =>
      simp only [List.map_cons, List.cons_append, collectParsed, hp,
        List.filterMap_cons, List.append_eq]
      rw [ih]
      simp [Except.toOption, hp]

theorem serialPops_eq (n : Nat) :
    ∀ q : List RawPayload,
      serialPops n q =
        ((q.drop (q.length - n)).reverse.filterMap
            (fun r => (parseTransaction r).toOption),
          q.take (q.length - n)) := by
  induction n with
  | zero =>
    intro q
    simp [serialPops]
  | succ m ih =>
    intro q
    rcases List.eq_nil_or_concat q with rfl | ⟨l, x, rfl⟩
    · simp [serialPops, rPop_nil]
    · simp only [List.concat_eq_append]
      have hlen : (l ++ [x]).length = l.length + 1 := by simp
      have hidx : l.length + 1 - (m + 1) = l.length - m := by omega
      have hdrop : (l ++ [x]).drop ((l ++ [x]).length - (m + 1)) =
          l.drop (l.length - m) ++ [x] := by
        rw [hlen, hidx, List.drop_append_of_le_length (by omega)]
      have htake : (l ++ [x]).take ((l ++ [x]).length - (m + 1)) =
          l.take (l.length - m) := by
        rw [hlen, hidx, List.take_append_of_le_length (by omega)]
      rw [hdrop, htake]
      simp only [serialPops, rPop_concat, ih l]
      rw [List.reverse_append]
      simp only [List.reverse_cons, List.reverse_nil, List.nil_append,
        List.singleton_append, List.filterMap_cons]
      cases hp : parseTransaction x <;> simp [Except.toOption, hp]

theorem popBatch_true_eq (q : List RawPayload) (n : Nat) :
    popBatch true q n =
      ((q.drop (q.length - n)).reverse.filterMap
          (fun r => (parseTransaction r).toOption),
        q.take (q.length - n)) := by
  unfold popBatch
  rw [if_pos rfl]
  simp only [pipelinePops_queue n q]
  have hres := pipelinePops_results n q
  have hcoll : collectParsed (pipelinePops n q).1 =
      (q.drop (q.length - n)).reverse.filterMap
        (fun r => (parseTransaction r).toOption) := by
    rw [hres, ← collectParsed_eq_filterMap]
  rw [← hcoll]

theorem popBatch_false_eq (q : List RawPayload) (n : Nat) :
    popBatch false q n =
      ((q.drop (q.length - n)).reverse.filterMap
          (fun r => (parseTransaction r).toOption),
        q.take (q.length - n)) := by
  unfold popBatch
  rw [if_neg (by simp)]
  exact serialPops_eq n q

/-! ## Decoder lemmas -/

theorem band_true_split (a b : Bool) (h : (a && b) = true) :
    a = true ∧ b = true := by
  cases a <;> cases b <;> simp_all

theorem strField_getStr (j : Json) (k : String) (h : strField j k = true) :
    ∃ s, getStr j k = some s := by
  unfold strField at h
  unfold getStr
  cases hf : j.getField k with
  | none => rw [hf] at h; simp at h
  | some v =>
    rw [hf] at h
    cases v with
    | str s => exact ⟨s, rfl⟩
    | null => simp at h
    | bool b => simp at h
    | num n => simp at h
    | arr xs => simp at h
    | obj fields => simp at h

theorem toEvent_isSome_of_guard (j : Json) (h : isConnectionEvent j = true) :
    ∃ e, toEvent j = some e := by
  unfold toEvent
  by_cases hr : isRegisterEvent j = true
  · rw [if_pos hr]
    have hs : strField j "name" = true := by
      unfold isRegisterEvent at hr
      exact (band_true_split _ _ hr).2
    obtain ⟨s, hsv⟩ := strField_getStr j "name" hs
    exact ⟨ConnectionEvent.register s, by rw [hsv]; rfl⟩
  · rw [if_neg hr]
    by_cases hf : isReferralEvent j = true
    · rw [if_pos hf]
      have h1 : strField j "referredBy" = true := by
        unfold isReferralEvent at hf
        exact (band_true_split _ _ (band_true_split _ _ hf).1).2
      have h2 : strField j "user" = true := by
        unfold isReferralEvent at hf
        exact (band_true_split _ _ hf).2
      obtain ⟨s1, hv1⟩ := strField_getStr j "referredBy" h1
      obtain ⟨s2, hv2⟩ := strField_getStr j "user" h2
      rw [hv1, hv2]
      exact ⟨ConnectionEvent.referral s1 s2, rfl⟩
    · rw [if_neg hf]
      by_cases ha : isAddFriendEvent j = true
      · rw [if_pos ha]
        have h1 : strField j "user1_name" = true := by
          unfold isAddFriendEvent at ha
          exact (band_true_split _ _ (band_true_split _ _ ha).1).2
        have h2 : strField j "user2_name" = true := by
          unfold isAddFriendEvent at ha
          exact (band_true_split _ _ ha).2
        obtain ⟨s1, hv1⟩ := strField_getStr j "user1_name" h1
        obtain ⟨s2, hv2⟩ := strField_getStr j "user2_name" h2
        rw [hv1, hv2]
        exact ⟨ConnectionEvent.addfriend s1 s2, rfl⟩
      · rw [if_neg ha]
        by_cases hu : isUnfriendEvent j = true
        · rw [if_pos hu]
          have h1 : strField j "user1_name" = true := by
            unfold isUnfriendEvent at hu
            exact (band_true_split _ _ (band_true_split _ _ hu).1).2
          have h2 : strField j "user2_name" = true := by
            unfold isUnfriendEvent at hu
            exact (band_true_split _ _ hu).2
          obtain ⟨s1, hv1⟩ := strField_getStr j "user1_name" h1
          obtain ⟨s2, hv2⟩ := strField_getStr j "user2_name" h2
          rw [hv1, hv2]
          exact ⟨ConnectionEvent.unfriend s1 s2, rfl⟩
        · exfalso
          unfold isConnectionEvent at h
          rw [Bool.eq_false_iff.mpr hr, Bool.eq_false_iff.mpr hf,
            Bool.eq_false_iff.mpr ha, Bool.eq_false_iff.mpr hu] at h
          simp at h

theorem parseSucceeds_eq_guard (j : Json) :
    parseSucceeds (parseTransaction (some j)) = isConnectionEvent j := by
  have hpt : parseTransaction (some j) =
      if isConnectionEvent j then
        match toEvent j with
        | some e => Except.ok e
        | none => Except.error "Invalid transaction format"
      else Except.error "Invalid transaction format" := rfl
  rw [hpt]
  by_cases h : isConnectionEvent j = true
  · rw [if_pos h, h]
    obtain ⟨e, he⟩ := toEvent_isSome_of_guard j h
    rw [he]
    rfl
  · rw [if_neg h, Bool.eq_false_iff.mpr h]
    rfl

/-! ## Claim C8 -/

/-- C8: `popBatch` submits the pops in one pipelined round, collects the
non-null results in pop order (skipping only payloads whose decode
fails), removes exactly the popped items from the queue, returns the
empty list on an empty queue without blocking, and the serial fallback
(pipeline failure) computes exactly the same result, stopping at the
first null or after `n` pops. -/
theorem c8_popBatch_pipelined_with_fallback (q : List RawPayload) (n : Nat) :
    popBatch false q n = popBatch true q n ∧
    (popBatch true q n).2 = q.take (q.length - n) ∧
    (popBatch true q n).1 =
      (poppedInOrder q n).filterMap (fun r => (parseTransaction r).toOption) ∧
    popBatch true ([] : List RawPayload) n = ([], []) ∧
    popBatch false ([] : List RawPayload) n = ([], []) := by
  have hT := popBatch_true_eq q n
  have hF := popBatch_false_eq q n
  refine ⟨hF.trans hT.symm, by rw [hT], ?_, ?_, ?_⟩
  · rw [hT]
    unfold poppedInOrder
    rfl
  · rw [popBatch_true_eq ([] : List RawPayload) n]
    simp
  · rw [popBatch_false_eq ([] : List RawPayload) n]
    simp

/-! ## Claim C9 -/

/-- C9: a payload that is not valid JSON or fails every variant guard
decodes to an error; `popBatch` swallows those errors (it returns a plain
event list, so no decode failure reaches the caller) and keeps exactly
the well-formed events, in pop order. -/
theorem c9_malformed_payloads_skipped (q : List RawPayload) (n : Nat) (j : Json) :
    parseTransaction none = Except.error "Failed to parse transaction" ∧
    parseSucceeds (parseTransaction (some j)) = isConnectionEvent j ∧
    (popBatch true q n).1 =
      (poppedInOrder q n).filterMap (fun r => (parseTransaction r).toOption) ∧
    (popBatch false q n).1 =
      (poppedInOrder q n).filterMap (fun r => (parseTransaction r).toOption) := by
  refine ⟨rfl, parseSucceeds_eq_guard j, ?_, ?_⟩
  · rw [popBatch_true_eq]
    unfold poppedInOrder
    rfl
  · rw [popBatch_false_eq]
    unfold poppedInOrder
    rfl

/-! ## Claim C3 -/

theorem retryFrom_unfold (op : Nat → Except DbError α) (jitter : Nat → Nat)
    (maxRetries attempt : Nat) :
    retryFrom op jitter maxRetries attempt =
      match op attempt with
      | Except.ok a => (Except.ok a, [])
      | Except.error e =>
        if h : isDeadlockError e ∧ attempt < maxRetries - 1 then
          let delay := 2 ^ attempt * 100 + jitter attempt
          let (r, ds) := retryFrom op jitter maxRetries (attempt + 1)
          (r, delay :: ds)
        else (Except.error e, []) := by
  rw [retryFrom]

theorem retryFrom_eq_ok (op : Nat → Except DbError α) (jitter : Nat → Nat)
    (m attempt : Nat) (a : α) (h : op attempt = Except.ok a) :
    retryFrom op jitter m attempt = (Except.ok a, []) := by
  rw [retryFrom_unfold, h]

theorem retryFrom_eq_error_retry (op : Nat → Except DbError α)
    (jitter : Nat → Nat) (m attempt : Nat) (e : DbError)
    (h : op attempt = Except.error e)
    (hc : isDeadlockError e = true ∧ attempt < m - 1) :
    retryFrom op jitter m attempt =
      ((retryFrom op jitter m (attempt + 1)).1,
        (2 ^ attempt * 100 + jitter attempt) ::
          (retryFrom op jitter m (attempt + 1)).2) := by
  rw [retryFrom_unfold, h]
  show (if h' : isDeadlockError e = true ∧ attempt < m - 1 then
      let delay := 2 ^ attempt * 100 + jitter attempt
      let (r, ds) := retryFrom op jitter m (attempt + 1)
      (r, delay :: ds)
    else (Except.error e, [])) = _
  rw [dif_pos hc]

theorem retryFrom_eq_error_stop (op : Nat → Except DbError α)
    (jitter : Nat → Nat) (m attempt : Nat) (e : DbError)
    (h : op attempt = Except.error e)
    (hc : ¬(isDeadlockError e = true ∧ attempt < m - 1)) :
    retryFrom op jitter m attempt = (Except.error e, []) := by
  rw [retryFrom_unfold, h]
  show (if h' : isDeadlockError e = true ∧ attempt < m - 1 then
      let delay := 2 ^ attempt * 100 + jitter attempt
      let (r, ds) := retryFrom op jitter m (attempt + 1)
      (r, delay :: ds)
    else (Except.error e, [])) = _
  rw [dif_neg hc]

theorem retryFrom_ok (op : Nat → Except DbError α) (jitter : Nat → Nat) (m : Nat) :
    ∀ (k attempt : Nat) (a : α),
      attempt + k < m →
      (∀ i, attempt ≤ i → i < attempt + k →
        ∃ e, op i = Except.error e ∧ isDeadlockError e = true) →
      op (attempt + k) = Except.ok a →
      retryFrom op jitter m attempt =
        (Except.ok a, (List.range' attempt k).map
          (fun i => 2 ^ i * 100 + jitter i)) := by
  intro k
  induction k with
  | zero =>
    intro attempt a hlt hdead hok
    simp only [Nat.add_zero] at hok
    rw [retryFrom_eq_ok op jitter m attempt a hok]
    rfl
  | succ kk ih =>
    intro attempt a hlt hdead hok
    obtain ⟨e, he, hde⟩ := hdead attempt (Nat.le_refl _) (by omega)
    rw [retryFrom_eq_error_retry op jitter m attempt e he ⟨hde, by omega⟩]
    have hok' : op (attempt + 1 + kk) = Except.ok a := by
      rw [show attempt + 1 + kk = attempt + (kk + 1) by omega]
      exact hok
    have hdead' : ∀ i, attempt + 1 ≤ i → i < attempt + 1 + kk →
        ∃ e, op i = Except.error e ∧ isDeadlockError e = true := by
      intro i h1 h2
      exact hdead i (by omega) (by omega)
    rw [ih (attempt + 1) a (by omega) hdead' hok']
    rfl

theorem retryFrom_immediate_error (op : Nat → Except DbError α)
    (jitter : Nat → Nat) (m attempt : Nat) (e : DbError)
    (he : op attempt = Except.error e) (hnd : isDeadlockError e = false) :
    retryFrom op jitter m attempt = (Except.error e, []) := by
  refine retryFrom_eq_error_stop op jitter m attempt e he ?_
  rintro ⟨h1, h2⟩
  rw [hnd] at h1
  exact Bool.false_ne_true h1

theorem retryFrom_exhausted (op : Nat → Except DbError α) (jitter : Nat → Nat)
    (m : Nat) :
    ∀ (k attempt : Nat) (e : DbError),
      attempt + k = m - 1 →
      (∀ i, i < m → ∃ e', op i = Except.error e' ∧ isDeadlockError e' = true) →
      op (m - 1) = Except.error e →
      (retryFrom op jitter m attempt).1 = Except.error e ∧
      (retryFrom op jitter m attempt).2.length = k := by
  intro k
  induction k with
  | zero =>
    intro attempt e hsum hdead hlast
    simp only [Nat.add_zero] at hsum
    subst hsum
    rw [retryFrom_eq_error_stop op jitter m (m - 1) e hlast
      (by rintro ⟨_, h2⟩; omega)]
    exact ⟨rfl, rfl⟩
  | succ kk ih =>
    intro attempt e hsum hdead hlast
    have hm : attempt < m := by omega
    obtain ⟨e', he', hde'⟩ := hdead attempt hm
    rw [retryFrom_eq_error_retry op jitter m attempt e' he' ⟨hde', by omega⟩]
    have := ih (attempt + 1) e (by omega) hdead hlast
    exact ⟨this.1, by simpa using this.2⟩

/-- C3 (amended): `retryOnDeadlock` treats an error as a deadlock exactly
when its message contains `"deadlock detected"` or `"40P01"`. In the
`processBatch` variant of `src/unnamed/part_013` the store transaction is
wrapped in `retryOnDeadlock` with `maxRetries = 5`: consecutive deadlock
failures are retried with backoff `100 * 2^k + jitter(k)` until an
attempt succeeds, a fifth deadlock failure is propagated after 4 sleeps,
and a non-deadlock error is propagated with no retry. In the variant at
`src/bacefook/apps/worker/src/database-client.ts` the transaction is
awaited once with no retry wrapper at all. Either way the worker never
writes popped events back to the queue. -/
theorem c3_deadlock_retry (op : Nat → Except DbError Store) (jitter : Nat → Nat)
    (k : Nat) (a : Store) (e : DbError) :
    processBatchNamedTx op = (op 0, []) ∧
    (k < 5 →
      (∀ i, i < k → ∃ e', op i = Except.error e' ∧ isDeadlockError e' = true) →
      op k = Except.ok a →
      processBatchRetriedTx op jitter =
        (Except.ok a, (List.range k).map (fun d => 2 ^ d * 100 + jitter d))) ∧
    (op 0 = Except.error e → isDeadlockError e = false →
      processBatchRetriedTx op jitter = (Except.error e, [])) ∧
    ((∀ i, i < 5 → ∃ e', op i = Except.error e' ∧ isDeadlockError e' = true) →
      op 4 = Except.error e →
      (processBatchRetriedTx op jitter).1 = Except.error e ∧
      (processBatchRetriedTx op jitter).2.length = 4) ∧
    (∀ (q : List RawPayload) (n : Nat)
      (p p' : List ConnectionEvent → Except DbError Store),
      (workerIteration q n p).1 = (workerIteration q n p').1) := by
  refine ⟨rfl, ?_, ?_, ?_, fun q n p p' => rfl⟩
  · intro hk hdead hok
    unfold processBatchRetriedTx retryOnDeadlock
    have hmain := retryFrom_ok op jitter 5 k 0 a (by omega)
      (fun i h1 h2 => hdead i (by omega)) (by simpa using hok)
    rw [hmain, List.range_eq_range']
  · intro he hnd
    exact retryFrom_immediate_error op jitter 5 0 e he hnd
  · intro hdead hlast
    exact retryFrom_exhausted op jitter 5 4 0 e (by omega) hdead (by simpa using hlast)

/-- C3 counterexample: with a transaction oracle that deadlocks on the
first attempt and would succeed on the second, the worker variant at
`src/bacefook/apps/worker/src/database-client.ts` fails the batch at once
(no retry around its `$transaction`), while the retried variant recovers
— so "the whole transaction is retried up to 5 attempts" is false for
that source file. -/
theorem c3_named_variant_does_not_retry :
    (processBatchNamedTx (fun k => if k = 0
        then Except.error ⟨some "deadlock detected", some "40P01"⟩
        else Except.ok emptyStore)).1 =
      Except.error ⟨some "deadlock detected", some "40P01"⟩ ∧
    (processBatchRetriedTx (fun k => if k = 0
        then Except.error ⟨some "deadlock detected", some "40P01"⟩
        else Except.ok emptyStore) (fun _ => 0)).1 = Except.ok emptyStore := by
  constructor
  · rfl
  · simp [processBatchRetriedTx, retryOnDeadlock, retryFrom, isDeadlockError,
      strIncludes, containsChars, isPrefixChars]

/-- C3 witness: the amended theorem applied to concrete oracles. -/
theorem c3_deadlock_retry_witness :
    processBatchRetriedTx (fun k => if k = 0
        then Except.error ⟨some "deadlock detected", none⟩
        else Except.ok emptyStore) (fun _ => 7) =
      (Except.ok emptyStore, [107]) ∧
    processBatchRetriedTx (fun _ => Except.error ⟨some "boom", none⟩)
        (fun _ => 0) =
      (Except.error ⟨some "boom", none⟩, []) := by
  constructor
  · have h := (c3_deadlock_retry (fun k => if k = 0
        then Except.error ⟨some "deadlock detected", none⟩
        else Except.ok emptyStore) (fun _ => 7) 1 emptyStore
        ⟨some "boom", none⟩).2.1
    have h2 := h (by omega)
      (fun i hi => by
        have : i = 0 := by omega
        subst this
        exact ⟨⟨some "deadlock detected", none⟩, rfl, by decide⟩)
      (by simp)
    rw [h2]
    simp [List.range_succ]
  · exact (c3_deadlock_retry (fun _ => Except.error ⟨some "boom", none⟩)
      (fun _ => 0) 0 emptyStore ⟨some "boom", none⟩).2.2.1 rfl (by decide)

/-! ## Identity-cache lemmas -/

theorem splitCachedAux_cons_hit (c : List (String × Nat)) (n : String)
    (rest : List String) (m : List (String × Nat)) (tc : List String)
    (i : Nat) (hc : truthyGet c n = some i) :
    splitCachedAux c (n :: rest) m tc =
      splitCachedAux c rest (mapSet m n i) tc := by
  unfold truthyGet at hc
  simp only [splitCachedAux]
  cases hcc : cacheGet c n with
  | none => rw [hcc] at hc; simp at hc
  | some i0 =>
    rw [hcc] at hc
    have hc' : (if i0 ≠ 0 then (some i0 : Option Nat) else none) = some i := hc
    show (if i0 ≠ 0 then splitCachedAux c rest (mapSet m n i0) tc
      else splitCachedAux c rest m (tc ++ [n])) = _
    by_cases hi : i0 ≠ 0
    · rw [if_pos hi] at hc'
      simp only [Option.some.injEq] at hc'
      subst hc'
      rw [if_pos hi]
    · rw [if_neg hi] at hc'
      simp at hc'

theorem splitCachedAux_cons_miss (c : List (String × Nat)) (n : String)
    (rest : List String) (m : List (String × Nat)) (tc : List String)
    (hc : truthyGet c n = none) :
    splitCachedAux c (n :: rest) m tc =
      splitCachedAux c rest m (tc ++ [n]) := by
  unfold truthyGet at hc
  simp only [splitCachedAux]
  cases hcc : cacheGet c n with
  | none => simp [hcc]
  | some i0 =>
    rw [hcc] at hc
    have hc' : (if i0 ≠ 0 then (some i0 : Option Nat) else none) = none := hc
    show (if i0 ≠ 0 then splitCachedAux c rest (mapSet m n i0) tc
      else splitCachedAux c rest m (tc ++ [n])) = _
    by_cases hi : i0 ≠ 0
    · rw [if_pos hi] at hc'
      simp at hc'
    · rw [if_neg hi]

theorem splitCachedAux_toCreate (c : List (String × Nat)) :
    ∀ (names : List String) (m : List (String × Nat)) (tc : List String),
      (splitCachedAux c names m tc).2 =
        tc ++ names.filter (fun n => (truthyGet c n).isNone) := by
  intro names
  induction names with
  | nil => intro m tc; simp [splitCachedAux]
  | cons n rest ih =>
    intro m tc
    cases hc : truthyGet c n with
    | some i =>
      rw [splitCachedAux_cons_hit c n rest m tc i hc, ih]
      simp [List.filter_cons, hc]
    | none =>
      rw [splitCachedAux_cons_miss c n rest m tc hc, ih]
      simp [List.filter_cons, hc]

theorem splitCachedAux_lookup_off (c : List (String × Nat)) :
    ∀ (names : List String) (m : List (String × Nat)) (tc : List String) (x : String),
      (x ∉ names ∨ truthyGet c x = none) →
      lookupId (splitCachedAux c names m tc).1 x = lookupId m x := by
  intro names
  induction names with
  | nil => intro m tc x _; rfl
  | cons n rest ih =>
    intro m tc x hx
    cases hc : truthyGet c n with
    | some i =>
      rw [splitCachedAux_cons_hit c n rest m tc i hc]
      have hxn : x ≠ n := by
        rcases hx with hx | hx
        · exact fun h => hx (h ▸ List.mem_cons_self _ _)
        · intro h
          rw [h, hc] at hx
          exact Option.some_ne_none i hx
      rw [ih _ tc x ?_, lookupId_mapSet_ne m n x i hxn]
      rcases hx with hx | hx
      · exact Or.inl (fun h => hx (List.mem_cons_of_mem _ h))
      · exact Or.inr hx
    | none =>
      rw [splitCachedAux_cons_miss c n rest m tc hc]
      refine ih _ _ x ?_
      rcases hx with hx | hx
      · exact Or.inl (fun h => hx (List.mem_cons_of_mem _ h))
      · exact Or.inr hx

theorem splitCachedAux_lookup_hit (c : List (String × Nat)) :
    ∀ (names : List String) (m : List (String × Nat)) (tc : List String)
      (x : String) (i : Nat), x ∈ names → truthyGet c x = some i →
      lookupId (splitCachedAux c names m tc).1 x = some i := by
  intro names
  induction names with
  | nil => intro m tc x i hx _; simp at hx
  | cons n rest ih =>
    intro m tc x i hx hc
    by_cases hxr : x ∈ rest
    · cases hcn : truthyGet c n with
      | some i0 =>
        rw [splitCachedAux_cons_hit c n rest m tc i0 hcn]
        exact ih _ tc x i hxr hc
      | none =>
        rw [splitCachedAux_cons_miss c n rest m tc hcn]
        exact ih _ _ x i hxr hc
    · have hxn : x = n := by
        rcases List.mem_cons.mp hx with h | h
        · exact h
        · exact absurd h hxr
      subst hxn
      rw [splitCachedAux_cons_hit c x rest m tc i hc]
      rw [splitCachedAux_lookup_off c rest (mapSet m x i) tc x (Or.inl hxr)]
      exact lookupId_mapSet_self m x i

theorem lookupId_mem (m : List (String × Nat)) (k : String) (i : Nat)
    (h : lookupId m k = some i) : (k, i) ∈ m := by
  induction m with
  | nil => simp [lookupId] at h
  | cons kv rest ih =>
    simp only [lookupId] at h
    by_cases hk : kv.1 = k
    · rw [if_pos hk] at h
      simp only [Option.some.injEq] at h
      have : kv = (k, i) := Prod.ext hk h
      rw [← this]
      exact List.mem_cons_self _ _
    · rw [if_neg hk] at h
      exact List.mem_cons_of_mem _ (ih h)

theorem createUserSafely_spec (st : WorkerDb) (name : String) :
    (createUserSafely st name).2.store = st.store ∧
    dbFindUnique (createUserSafely st name).2.users name =
      some (createUserSafely st name).1 ∧
    (∀ x, x ≠ name → dbFindUnique (createUserSafely st name).2.users x =
      dbFindUnique st.users x) ∧
    cacheGet (createUserSafely st name).2.cache name =
      some (createUserSafely st name).1 ∧
    (∀ x, x ≠ name → cacheGet (createUserSafely st name).2.cache x =
      cacheGet st.cache x) ∧
    (∀ i0, dbFindUnique st.users name = some i0 →
      (createUserSafely st name).1 = i0) ∧
    (PosIds st → (createUserSafely st name).1 ≠ 0 ∧
      PosIds (createUserSafely st name).2) := by
  unfold createUserSafely
  cases hdb : dbFindUnique st.users name with
  | some i =>
    refine ⟨rfl, hdb, fun x _ => rfl, lookupId_mapSet_self _ _ _,
      fun x hx => lookupId_mapSet_ne _ _ _ _ hx, ?_, ?_⟩
    · intro i0 h0
      exact Option.some.inj h0
    · intro hpos
      refine ⟨?_, hpos.1, hpos.2⟩
      exact hpos.1 (name, i) (lookupId_mem st.users name i hdb)
  | none =>
    refine ⟨rfl, ?_, ?_, lookupId_mapSet_self _ _ _,
      fun x hx => lookupId_mapSet_ne _ _ _ _ hx, ?_, ?_⟩
    · unfold dbFindUnique at *
      rw [lookupId_append, hdb]
      simp [lookupId]
    · intro x hx
      unfold dbFindUnique
      rw [lookupId_append]
      cases hl : lookupId st.users x with
      | some v => rfl
      | none => simp [lookupId, Ne.symm hx]
    · intro i0 h0
      exact Option.noConfusion h0
    · intro hpos
      refine ⟨hpos.2, ?_, by simpa using hpos.2⟩
      intro kv hkv
      rcases List.mem_append.mp hkv with h1 | h2
      · exact hpos.1 kv h1
      · rcases List.mem_singleton.mp h2 with rfl
        exact hpos.2

theorem createUsersAux_acc (names : List String) :
    ∀ (st : WorkerDb) (acc : List (String × Nat)),
      createUsersAux st names acc =
        (acc ++ (createUsersAux st names []).1, (createUsersAux st names []).2) := by
  induction names with
  | nil => intro st acc; simp [createUsersAux]
  | cons n rest ih =>
    intro st acc
    simp only [createUsersAux]
    rw [ih (createUserSafely st n).2 (acc ++ [(n, (createUserSafely st n).1)]),
      ih (createUserSafely st n).2 ([] ++ [(n, (createUserSafely st n).1)])]
    simp

theorem createUsersAux_spec (names : List String) :
    ∀ st : WorkerDb,
      (createUsersAux st names []).2.store = st.store ∧
      (∀ x, x ∉ names →
        cacheGet (createUsersAux st names []).2.cache x = cacheGet st.cache x) ∧
      (∀ x i0, dbFindUnique st.users x = some i0 →
        dbFindUnique (createUsersAux st names []).2.users x = some i0) ∧
      (∀ kv ∈ (createUsersAux st names []).1, kv.1 ∈ names) ∧
      (∀ n ∈ names, ∃ i,
        cacheGet (createUsersAux st names []).2.cache n = some i ∧
        dbFindUnique (createUsersAux st names []).2.users n = some i ∧
        (n, i) ∈ (createUsersAux st names []).1 ∧
        (∀ v, (n, v) ∈ (createUsersAux st names []).1 → v = i) ∧
        (∀ j, dbFindUnique st.users n = some j → i = j)) ∧
      (PosIds st → PosIds (createUsersAux st names []).2 ∧
        ∀ n i, (n, i) ∈ (createUsersAux st names []).1 → i ≠ 0) := by
  induction names with
  | nil =>
    intro st
    refine ⟨rfl, fun x _ => rfl, fun x i0 h => h, ?_, ?_, ?_⟩
    · intro kv hkv
      simp [createUsersAux] at hkv
    · intro n hn
      simp at hn
    · intro hpos
      exact ⟨hpos, fun n i h => by simp [createUsersAux] at h⟩
  | cons n rest ih =>
    intro st
    obtain ⟨hst, hdbn, hdbo, hcn, hco, hdval, hposcs⟩ := createUserSafely_spec st n
    rcases hCS : createUserSafely st n with ⟨i0, st0⟩
    rw [hCS] at hst hdbn hdbo hcn hco hdval hposcs
    simp only [] at hst hdbn hdbo hcn hco hdval hposcs
    have hunf : createUsersAux st (n :: rest) [] =
        ((n, i0) :: (createUsersAux st0 rest []).1, (createUsersAux st0 rest []).2) := by
      simp only [createUsersAux, hCS]
      rw [createUsersAux_acc rest st0 ([] ++ [(n, i0)])]
      simp
    obtain ⟨ihst, ihco, ihdbo, ihkeys, ihname, ihpos⟩ := ih st0
    rw [hunf]
    refine ⟨?_, ?_, ?_, ?_, ?_, ?_⟩
    · rw [ihst, hst]
    · intro x hx
      have hxn : x ≠ n := fun h => hx (h ▸ List.mem_cons_self _ _)
      have hxr : x ∉ rest := fun h => hx (List.mem_cons_of_mem _ h)
      rw [ihco x hxr, hco x hxn]
    · intro x i1 hdb
      by_cases hxn : x = n
      · subst hxn
        have : i0 = i1 := hdval i1 hdb
        subst this
        exact ihdbo x i0 hdbn
      · refine ihdbo x i1 ?_
        rw [hdbo x hxn]
        exact hdb
    · intro kv hkv
      rcases List.mem_cons.mp hkv with rfl | h
      · exact List.mem_cons_self _ _
      · exact List.mem_cons_of_mem _ (ihkeys kv h)
    · intro n' hn'
      by_cases hnr : n' ∈ rest
      · obtain ⟨i, hc, hdb, hmem, huniq, hjd⟩ := ihname n' hnr
        refine ⟨i, hc, hdb, List.mem_cons_of_mem _ hmem, ?_, ?_⟩
        · intro v hv
          rcases List.mem_cons.mp hv with hv | hv
          · have hn'n : n' = n := congrArg Prod.fst hv
            have hvi : v = i0 := congrArg Prod.snd hv
            subst hn'n
            rw [hvi]
            exact (hjd i0 hdbn).symm
          · exact huniq v hv
        · intro j hdbj
          by_cases hn'n : n' = n
          · subst hn'n
            exact hjd i0 hdbn |>.trans (hdval j hdbj)
          · refine hjd j ?_
            rw [hdbo n' hn'n]
            exact hdbj
      · have hn'n : n' = n := by
          rcases List.mem_cons.mp hn' with h | h
          · exact h
          · exact absurd h hnr
        subst hn'n
        refine ⟨i0, ?_, ihdbo n' i0 hdbn, List.mem_cons_self _ _, ?_, ?_⟩
        · rw [ihco n' hnr, hcn]
        · intro v hv
          rcases List.mem_cons.mp hv with hv | hv
          · exact congrArg Prod.snd hv
          · exact absurd (ihkeys (n', v) hv) hnr
        · intro j hdbj
          exact hdval j hdbj
    · intro hpos
      obtain ⟨hi0, hpos0⟩ := hposcs hpos
      obtain ⟨hpos', hvals⟩ := ihpos hpos0
      refine ⟨hpos', ?_⟩
      intro n' i hni
      rcases List.mem_cons.mp hni with hv | hv
      · rw [show i = i0 from congrArg Prod.snd hv]
        exact hi0
      · exact hvals n' i hv

theorem truthyGet_some (c : List (String × Nat)) (n : String) (i : Nat)
    (h : truthyGet c n = some i) : cacheGet c n = some i ∧ i ≠ 0 := by
  unfold truthyGet at h
  cases hc : cacheGet c n with
  | none => rw [hc] at h; simp at h
  | some i0 =>
    rw [hc] at h
    have h' : (if i0 ≠ 0 then (some i0 : Option Nat) else none) = some i := h
    by_cases hi : i0 ≠ 0
    · rw [if_pos hi] at h'
      simp only [Option.some.injEq] at h'
      subst h'
      exact ⟨rfl, hi⟩
    · rw [if_neg hi] at h'
      simp at h'

theorem truthyGet_of_cache (c : List (String × Nat)) (n : String) (i : Nat)
    (hc : cacheGet c n = some i) (hi : i ≠ 0) : truthyGet c n = some i := by
  unfold truthyGet
  rw [hc]
  show (if i ≠ 0 then (some i : Option Nat) else none) = some i
  rw [if_pos hi]

theorem foldMapSet_lookup_off (res : List (String × Nat)) :
    ∀ (m0 : List (String × Nat)) (x : String), x ∉ res.map Prod.fst →
      lookupId (res.foldl (fun m kv => mapSet m kv.1 kv.2) m0) x =
        lookupId m0 x := by
  induction res with
  | nil => intro m0 x _; rfl
  | cons kv res' ih =>
    intro m0 x hx
    have hxk : x ≠ kv.1 := fun h => hx (by simp [h])
    have hxr : x ∉ res'.map Prod.fst := fun h => hx (by simp [h])
    rw [List.foldl_cons, ih _ x hxr, lookupId_mapSet_ne m0 kv.1 x kv.2 hxk]

theorem foldMapSet_lookup_val (res : List (String × Nat)) :
    ∀ (m0 : List (String × Nat)) (x : String) (i : Nat),
      (∀ v, (x, v) ∈ res → v = i) → (x, i) ∈ res →
      lookupId (res.foldl (fun m kv => mapSet m kv.1 kv.2) m0) x = some i := by
  induction res with
  | nil => intro m0 x i _ hmem; simp at hmem
  | cons kv res' ih =>
    intro m0 x i huniq hmem
    rw [List.foldl_cons]
    by_cases hk : kv.1 = x
    · have hkv : kv = (x, kv.2) := Prod.ext hk rfl
      have hkv2 : kv.2 = i := huniq kv.2 (by rw [← hkv]; exact List.mem_cons_self _ _)
      by_cases hxr : x ∈ res'.map Prod.fst
      · obtain ⟨kv', hkv', hfst⟩ := List.mem_map.mp hxr
        have hkv'' : (x, kv'.2) ∈ res' := by
          rwa [show (x, kv'.2) = kv' from Prod.ext hfst.symm rfl]
        have hval : kv'.2 = i := huniq kv'.2 (List.mem_cons_of_mem _ hkv'')
        refine ih _ x i ?_ (hval ▸ hkv'')
        intro v hv
        exact huniq v (List.mem_cons_of_mem _ hv)
      · rw [foldMapSet_lookup_off res' _ x hxr]
        rw [hk, hkv2]
        exact lookupId_mapSet_self m0 x i
    · have hmem' : (x, i) ∈ res' := by
        rcases List.mem_cons.mp hmem with h | h
        · exact absurd (congrArg Prod.fst h.symm) hk
        · exact h
      refine ih _ x i ?_ hmem'
      intro v hv
      exact huniq v (List.mem_cons_of_mem _ hv)

theorem ensureUsersExist_spec (st : WorkerDb) (names : List String) :
    (ensureUsersExist st names).2.store = st.store ∧
    (∀ n i, n ∈ names → truthyGet st.cache n = some i →
      lookupId (ensureUsersExist st names).1 n = some i) ∧
    (∀ n, n ∈ names → truthyGet st.cache n = none →
      ∃ i, lookupId (ensureUsersExist st names).1 n = some i ∧
        cacheGet (ensureUsersExist st names).2.cache n = some i ∧
        dbFindUnique (ensureUsersExist st names).2.users n = some i ∧
        (∀ j, dbFindUnique st.users n = some j → i = j)) ∧
    ((∀ n ∈ names, (truthyGet st.cache n).isSome) →
      (ensureUsersExist st names).2 = st ∧
      (∀ n ∈ names, lookupId (ensureUsersExist st names).1 n =
        truthyGet st.cache n)) ∧
    (PosIds st →
      PosIds (ensureUsersExist st names).2 ∧
      (∀ n ∈ names, ∃ i, i ≠ 0 ∧
        lookupId (ensureUsersExist st names).1 n = some i ∧
        cacheGet (ensureUsersExist st names).2.cache n = some i)) := by
  have hsplit2 := splitCachedAux_toCreate st.cache names [] []
  rcases hS : splitCachedAux st.cache names [] [] with ⟨m0, toCreate⟩
  rw [hS] at hsplit2
  simp only [List.nil_append] at hsplit2
  rcases hC : createUsersAux st toCreate [] with ⟨created, st'⟩
  obtain ⟨ihst, ihco, ihdbo, ihkeys, ihname, ihpos⟩ := createUsersAux_spec toCreate st
  rw [hC] at ihst ihco ihdbo ihkeys ihname ihpos
  simp only [] at ihst ihco ihdbo ihkeys ihname ihpos
  have hEU : ensureUsersExist st names =
      (created.foldl (fun m kv => mapSet m kv.1 kv.2) m0, st') := by
    unfold ensureUsersExist
    simp only [hS, hC]
  rw [hEU]
  simp only []
  have hm0hit : ∀ n i, n ∈ names → truthyGet st.cache n = some i →
      lookupId m0 n = some i := by
    intro n i hn hi
    have := splitCachedAux_lookup_hit st.cache names [] [] n i hn hi
    rwa [hS] at this
  have hnotKey : ∀ n, truthyGet st.cache n ≠ none → n ∉ created.map Prod.fst := by
    intro n hn hmem
    obtain ⟨kv, hkv, hfst⟩ := List.mem_map.mp hmem
    have := ihkeys kv hkv
    rw [hfst, hsplit2] at this
    have := List.of_mem_filter this
    simp only [Option.isNone_iff_eq_none, decide_eq_true_eq] at this
    exact hn this
  have hmiss_mem : ∀ n, n ∈ names → truthyGet st.cache n = none →
      n ∈ toCreate := by
    intro n hn hno
    rw [hsplit2]
    refine List.mem_filter.mpr ⟨hn, ?_⟩
    simp [hno]
  refine ⟨ihst, ?_, ?_, ?_, ?_⟩
  · intro n i hn hi
    rw [foldMapSet_lookup_off created m0 n
      (hnotKey n (by rw [hi]; exact Option.some_ne_none i))]
    exact hm0hit n i hn hi
  · intro n hn hno
    obtain ⟨i, hc, hdb, hmem, huniq, hjd⟩ := ihname n (hmiss_mem n hn hno)
    exact ⟨i, foldMapSet_lookup_val created m0 n i huniq hmem, hc, hdb, hjd⟩
  · intro hall
    have htc : toCreate = [] := by
      rw [hsplit2]
      refine List.filter_eq_nil.mpr ?_
      intro n hn
      have := hall n hn
      simp only [Option.isNone_iff_eq_none, decide_eq_true_eq]
      intro hcontra
      rw [hcontra] at this
      simp at this
    subst htc
    have hcnil : createUsersAux st ([] : List String) ([] : List (String × Nat)) =
        ([], st) := rfl
    rw [hcnil] at hC
    obtain ⟨h1, h2⟩ := Prod.mk.injEq _ _ _ _ ▸ hC
    refine ⟨?_, ?_⟩
    · cases hC
      rfl
    · intro n hn
      obtain ⟨i, hi⟩ := Option.isSome_iff_exists.mp (hall n hn)
      cases hC
      simp only [List.foldl_nil]
      rw [hi]
      exact hm0hit n i hn hi
  · intro hpos
    obtain ⟨hpos', hvals⟩ := ihpos hpos
    refine ⟨hpos', ?_⟩
    intro n hn
    cases hno : truthyGet st.cache n with
    | some i =>
      obtain ⟨hcache, hi0⟩ := truthyGet_some st.cache n i hno
      refine ⟨i, hi0, ?_, ?_⟩
      · rw [foldMapSet_lookup_off created m0 n
          (hnotKey n (by rw [hno]; exact Option.some_ne_none i))]
        exact hm0hit n i hn hno
      · rw [ihco n ?_, hcache]
        intro hmem
        rw [hsplit2] at hmem
        have := List.of_mem_filter hmem
        simp only [Option.isNone_iff_eq_none, decide_eq_true_eq] at this
        rw [hno] at this
        exact Option.some_ne_none i this
    | none =>
      obtain ⟨i, hc, hdb, hmem, huniq, hjd⟩ := ihname n (hmiss_mem n hn hno)
      exact ⟨i, hvals n i hmem,
        foldMapSet_lookup_val created m0 n i huniq hmem, hc⟩

/-! ## Claim C7 -/

/-- C7: `ensureUsersExist` returns a map that assigns an id to every
requested name; names with a (truthy) cache entry take exactly the cached
id; a cache miss whose insert hits the unique constraint (the name is
already in the users table) is absorbed by the select-by-name, whose id
is returned and written into the cache — so the call succeeds even when
every name already exists in the store. -/
theorem c7_ensure_users_exist (st : WorkerDb) (names : List String)
    (hpos : PosIds st) :
    (∀ n ∈ names, ∃ i, lookupId (ensureUsersExist st names).1 n = some i) ∧
    (∀ n i, n ∈ names → truthyGet st.cache n = some i →
      lookupId (ensureUsersExist st names).1 n = some i) ∧
    (∀ n i, n ∈ names → truthyGet st.cache n = none →
      dbFindUnique st.users n = some i →
      lookupId (ensureUsersExist st names).1 n = some i ∧
      cacheGet (ensureUsersExist st names).2.cache n = some i) := by
  obtain ⟨hstore, hhit, hmiss, hnocreate, hposclause⟩ :=
    ensureUsersExist_spec st names
  refine ⟨?_, hhit, ?_⟩
  · intro n hn
    obtain ⟨i, _, hl, _⟩ := (hposclause hpos).2 n hn
    exact ⟨i, hl⟩
  · intro n i hn hno hdb
    obtain ⟨i', hl, hc, _, hjd⟩ := hmiss n hn hno
    have : i' = i := hjd i hdb
    subst this
    exact ⟨hl, hc⟩

/-- C7 witness: a cache hit, an absorbed unique violation, and a fresh
insert in one call. -/
theorem c7_ensure_users_exist_witness :
    (∃ i, lookupId (ensureUsersExist
      ⟨[("dave", 7)], 8, [("alice", 1)], emptyStore⟩
      ["alice", "dave", "erin"]).1 "erin" = some i) ∧
    lookupId (ensureUsersExist
      ⟨[("dave", 7)], 8, [("alice", 1)], emptyStore⟩
      ["alice", "dave", "erin"]).1 "alice" = some 1 ∧
    lookupId (ensureUsersExist
      ⟨[("dave", 7)], 8, [("alice", 1)], emptyStore⟩
      ["alice", "dave", "erin"]).1 "dave" = some 7 ∧
    cacheGet (ensureUsersExist
      ⟨[("dave", 7)], 8, [("alice", 1)], emptyStore⟩
      ["alice", "dave", "erin"]).2.cache "dave" = some 7 := by
  have h := c7_ensure_users_exist
    ⟨[("dave", 7)], 8, [("alice", 1)], emptyStore⟩
    ["alice", "dave", "erin"]
    (by constructor
        · intro kv hkv
          simp at hkv
          rw [hkv]
          decide
        · decide)
  refine ⟨h.1 "erin" (by simp), ?_, ?_, ?_⟩
  · exact h.2.1 "alice" 1 (by simp) rfl
  · exact (h.2.2 "dave" 7 (by simp) rfl rfl).1
  · exact (h.2.2 "dave" 7 (by simp) rfl rfl).2

/-! ## Claim C10 -/

/-- C10: every name occurring in the referral, friendship, unfriendship
or transaction-log entries of the plan `preprocessBatch` builds is a
member of its `newUsers` set, and whenever the resolved user map covers
`newUsers`, the store-write construction of `processBatch` finds an id
for every lookup — the non-null assertions cannot fail. -/
theorem c10_plan_names_safe (evts : List ConnectionEvent)
    (um : List (String × Nat)) (s : Store) :
    PlanOk (preprocessBatch evts) ∧
    ((∀ n ∈ (preprocessBatch evts).newUsers, (lookupId um n).isSome) →
      (runTransaction um (preprocessBatch evts) s).isSome) := by
  refine ⟨preprocessBatch_planOk evts, ?_⟩
  intro hcov
  obtain ⟨hr, hf, hu, hl⟩ := preprocessBatch_planOk evts
  obtain ⟨rd, hrd⟩ : ∃ rd, resolveList (resolveReferral um)
      (preprocessBatch evts).referrals = some rd := by
    refine resolveList_isSome ?_
    intro p hp
    obtain ⟨i, hi⟩ := Option.isSome_iff_exists.mp (hcov p.1 (hr p hp).1)
    obtain ⟨j, hj⟩ := Option.isSome_iff_exists.mp (hcov p.2 (hr p hp).2)
    simp [resolveReferral, hi, hj]
  obtain ⟨fd, hfd⟩ : ∃ fd, resolveList (resolveFriendPair um)
      (preprocessBatch evts).friendships = some fd := by
    refine resolveList_isSome ?_
    intro p hp
    obtain ⟨i, hi⟩ := Option.isSome_iff_exists.mp (hcov p.1 (hf p hp).1)
    obtain ⟨j, hj⟩ := Option.isSome_iff_exists.mp (hcov p.2 (hf p hp).2)
    simp [resolveFriendPair, hi, hj]
  obtain ⟨ud, hud⟩ : ∃ ud, resolveList (resolveFriendPair um)
      (preprocessBatch evts).unfriendships = some ud := by
    refine resolveList_isSome ?_
    intro p hp
    obtain ⟨i, hi⟩ := Option.isSome_iff_exists.mp (hcov p.1 (hu p hp).1)
    obtain ⟨j, hj⟩ := Option.isSome_iff_exists.mp (hcov p.2 (hu p hp).2)
    simp [resolveFriendPair, hi, hj]
  obtain ⟨ld, hld⟩ : ∃ ld, resolveList (resolveLog um)
      (preprocessBatch evts).transactionLogs = some ld := by
    refine resolveList_isSome ?_
    intro l hl'
    obtain ⟨i, hi⟩ := Option.isSome_iff_exists.mp (hcov l.userName (hl l hl'))
    simp [resolveLog, hi]
  rw [runTransaction_eq, hrd, hfd, hud, hld]
  rfl

/-- C10 witness: the safety theorem applied to a concrete batch and
covering user map. -/
theorem c10_plan_names_safe_witness :
    (runTransaction [("alice", 1), ("carol", 2)]
      (preprocessBatch [ConnectionEvent.referral "alice" "carol"])
      emptyStore).isSome := by
  refine (c10_plan_names_safe [ConnectionEvent.referral "alice" "carol"]
    [("alice", 1), ("carol", 2)] emptyStore).2 ?_
  intro n hn
  simp [preprocessBatch, preprocessStep, emptyBatchData, setAdd] at hn
  rcases hn with rfl | rfl <;> rfl

/-! ## Claim C5: transaction idempotence machinery -/

theorem runTransaction_congr (m1 m2 : List (String × Nat)) (bd : BatchData)
    (s : Store) (hplan : PlanOk bd)
    (h : ∀ n ∈ bd.newUsers, lookupId m1 n = lookupId m2 n) :
    runTransaction m1 bd s = runTransaction m2 bd s := by
  obtain ⟨hr, hf, hu, hl⟩ := hplan
  unfold runTransaction
  have h1 : resolveList (resolveReferral m1) bd.referrals =
      resolveList (resolveReferral m2) bd.referrals := by
    refine resolveList_congr ?_
    intro p hp
    unfold resolveReferral
    rw [h p.1 (hr p hp).1, h p.2 (hr p hp).2]
  have h2 : resolveList (resolveFriendPair m1) bd.friendships =
      resolveList (resolveFriendPair m2) bd.friendships := by
    refine resolveList_congr ?_
    intro p hp
    unfold resolveFriendPair
    rw [h p.1 (hf p hp).1, h p.2 (hf p hp).2]
  have h3 : resolveList (resolveFriendPair m1) bd.unfriendships =
      resolveList (resolveFriendPair m2) bd.unfriendships := by
    refine resolveList_congr ?_
    intro p hp
    unfold resolveFriendPair
    rw [h p.1 (hu p hp).1, h p.2 (hu p hp).2]
  have h4 : resolveList (resolveLog m1) bd.transactionLogs =
      resolveList (resolveLog m2) bd.transactionLogs := by
    refine resolveList_congr ?_
    intro l hl'
    unfold resolveLog
    rw [h l.userName (hl l hl')]
  rw [h1, h2, h3, h4]

theorem referrals_idempotent (rd rs : List (Nat × Nat)) :
    rd.foldl insertReferral (rd.foldl insertReferral rs) =
      rd.foldl insertReferral rs :=
  foldl_insertReferral_id rd _ (fun p hp => mem_foldl_insertReferral rd rs p hp)

theorem phase_idempotent (F U : List (Nat × Nat)) (fs0 : List FriendshipRow) :
    U.foldl applyUnfriend (F.foldl upsertFriendship
      (U.foldl applyUnfriend (F.foldl upsertFriendship fs0))) =
    U.foldl applyUnfriend (F.foldl upsertFriendship fs0) := by
  have hpres : ∀ p ∈ F, containsPair
      (U.foldl applyUnfriend (F.foldl upsertFriendship fs0)) p = true := by
    intro p hp
    rw [containsPair_foldl_unfriend]
    exact containsPair_foldl_upsert_mem F fs0 p hp
  rw [foldl_upsert_eq_map F _ hpres, foldl_unfriend_eq_map, List.map_map]
  refine ((List.map_congr_left ?_).trans (List.map_id' _))
  intro r hr
  have hU : rowPairMem r U = true → r.status = FriendStatus.INACTIVE := by
    intro hu
    obtain ⟨p, hp, hm⟩ := List.any_eq_true.mp hu
    exact status_after_unfriends_mem U _ p r hp hr hm
  have hF : rowPairMem r U = false → rowPairMem r F = true →
      r.status = FriendStatus.ACTIVE := by
    intro hu hf
    have hr' : r ∈ (F.foldl upsertFriendship fs0).map (fun r =>
        if rowPairMem r U && r.status = FriendStatus.ACTIVE
        then { r with status := FriendStatus.INACTIVE } else r) := by
      rw [← foldl_unfriend_eq_map]
      exact hr
    obtain ⟨r0, hr0, heq⟩ := List.mem_map.mp hr'
    have hr0r : r0 = r := by
      by_cases hc : (rowPairMem r0 U && decide (r0.status = FriendStatus.ACTIVE)) = true
      · exfalso
        rw [if_pos hc] at heq
        obtain ⟨hc1, _⟩ := band_true_split _ _ hc
        have : rowPairMem r U = true := by
          rw [← heq]
          rw [show rowPairMem { r0 with status := FriendStatus.INACTIVE } U =
            rowPairMem r0 U from rfl]
          exact hc1
        rw [this] at hu
        simp at hu
      · rw [if_neg hc] at heq
        exact heq
    rw [← hr0r] at hf ⊢
    obtain ⟨p, hp, hm⟩ := List.any_eq_true.mp hf
    exact status_after_upserts_mem F fs0 p r0 hp hr0 hm
  obtain ⟨a, b, s⟩ := r
  by_cases hu : rowPairMem ⟨a, b, FriendStatus.ACTIVE⟩ U = true <;>
    by_cases hf : rowPairMem ⟨a, b, FriendStatus.ACTIVE⟩ F = true
  · have hs : s = FriendStatus.INACTIVE := hU (by
      rw [rowPairMem_status_irrel]; exact hu)
    subst hs
    simp [Function.comp, rowPairMem_status_irrel, hu, hf]
  · have hs : s = FriendStatus.INACTIVE := hU (by
      rw [rowPairMem_status_irrel]; exact hu)
    subst hs
    simp [Function.comp, rowPairMem_status_irrel, hu, hf]
  · have hs : s = FriendStatus.ACTIVE := hF
      (by rw [rowPairMem_status_irrel]
          exact Bool.eq_false_iff.mpr hu)
      (by rw [rowPairMem_status_irrel]; exact hf)
    subst hs
    simp [Function.comp, rowPairMem_status_irrel, hu, hf]
  · by_cases hs : s = FriendStatus.ACTIVE <;>
      [skip; skip] <;> cases s <;>
      simp [Function.comp, rowPairMem_status_irrel, hu, hf]

theorem projectBatch_unfold (st : WorkerDb) (evts : List ConnectionEvent)
    (hne : evts ≠ []) :
    projectBatch st evts =
      match runTransaction (ensureUsersExist st (preprocessBatch evts).newUsers).1
          (preprocessBatch evts)
          (ensureUsersExist st (preprocessBatch evts).newUsers).2.store with
      | some store' =>
        some { (ensureUsersExist st (preprocessBatch evts).newUsers).2 with
                store := store' }
      | none => none := by
  unfold projectBatch
  rw [if_neg (by simpa [List.isEmpty_iff] using hne)]

/-- C5: every decoded event contributes exactly one transaction-log row
(one per variant), log inserts are never deduplicated, and projecting the
same batch twice (through `ensureUsersExist` and the store transaction)
leaves the users table, the friendships table and the referrals table
exactly as after one projection while doubling the log rows. -/
theorem c5_one_log_per_event_idempotent (st st1 st2 : WorkerDb)
    (evts : List ConnectionEvent) (hpos : PosIds st)
    (h1 : projectBatch st evts = some st1)
    (h2 : projectBatch st1 evts = some st2) :
    (preprocessBatch evts).transactionLogs.length = evts.length ∧
    st1.store.logs.length = st.store.logs.length + evts.length ∧
    st2.users = st1.users ∧
    st2.store.friendships = st1.store.friendships ∧
    st2.store.referrals = st1.store.referrals ∧
    st2.store.logs.length = st1.store.logs.length + evts.length := by
  refine ⟨preprocessBatch_logs_length evts, ?_⟩
  by_cases hne : evts = []
  · subst hne
    unfold projectBatch at h1 h2
    simp only [List.isEmpty_nil, if_true, Option.some.injEq] at h1 h2
    subst h1
    subst h2
    exact ⟨by simp, rfl, rfl, rfl, by simp⟩
  · rw [projectBatch_unfold st evts hne] at h1
    rcases hE1 : ensureUsersExist st (preprocessBatch evts).newUsers with ⟨m1, stA⟩
    rw [hE1] at h1
    simp only [] at h1
    obtain ⟨hstoreA, _, _, _, hposcA⟩ :=
      ensureUsersExist_spec st (preprocessBatch evts).newUsers
    rw [hE1] at hstoreA hposcA
    simp only [] at hstoreA hposcA
    obtain ⟨hposA, hcov⟩ := hposcA hpos
    cases hRT1 : runTransaction m1 (preprocessBatch evts) stA.store with
    | none => rw [hRT1] at h1; simp at h1
    | some store1 =>
    rw [hRT1] at h1
    simp only [Option.some.injEq] at h1
    subst h1
    rw [projectBatch_unfold _ evts hne] at h2
    rcases hE2 : ensureUsersExist { stA with store := store1 }
        (preprocessBatch evts).newUsers with ⟨m2, stB⟩
    rw [hE2] at h2
    simp only [] at h2
    obtain ⟨_, _, _, hnocreateB, _⟩ :=
      ensureUsersExist_spec { stA with store := store1 }
        (preprocessBatch evts).newUsers
    rw [hE2] at hnocreateB
    simp only [] at hnocreateB
    have halltruthy : ∀ n ∈ (preprocessBatch evts).newUsers,
        (truthyGet ({ stA with store := store1 } : WorkerDb).cache n).isSome := by
      intro n hn
      obtain ⟨i, hi0, _, hcache⟩ := hcov n hn
      have : truthyGet stA.cache n = some i := truthyGet_of_cache _ _ _ hcache hi0
      rw [show ({ stA with store := store1 } : WorkerDb).cache = stA.cache from rfl,
        this]
      rfl
    obtain ⟨hstB, hm2⟩ := hnocreateB halltruthy
    subst hstB
    have hm2m1 : ∀ n ∈ (preprocessBatch evts).newUsers,
        lookupId m1 n = lookupId m2 n := by
      intro n hn
      obtain ⟨i, hi0, hlm1, hcache⟩ := hcov n hn
      rw [hlm1, hm2 n hn]
      rw [show ({ stA with store := store1 } : WorkerDb).cache = stA.cache from rfl]
      rw [truthyGet_of_cache _ _ _ hcache hi0]
    have hcongr : runTransaction m2 (preprocessBatch evts)
        ({ stA with store := store1 } : WorkerDb).store =
        runTransaction m1 (preprocessBatch evts) store1 := by
      rw [show ({ stA with store := store1 } : WorkerDb).store = store1 from rfl]
      exact (runTransaction_congr m1 m2 (preprocessBatch evts) store1
        (preprocessBatch_planOk evts) hm2m1).symm
    rw [hcongr] at h2
    rw [runTransaction_eq] at hRT1
    cases hrd : resolveList (resolveReferral m1) (preprocessBatch evts).referrals with
    | none => rw [hrd] at hRT1; simp at hRT1
    | some rd =>
    rw [hrd] at hRT1
    cases hfd : resolveList (resolveFriendPair m1) (preprocessBatch evts).friendships with
    | none => rw [hfd] at hRT1; simp at hRT1
    | some fd =>
    rw [hfd] at hRT1
    cases hud : resolveList (resolveFriendPair m1) (preprocessBatch evts).unfriendships with
    | none => rw [hud] at hRT1; simp at hRT1
    | some ud =>
    rw [hud] at hRT1
    cases hld : resolveList (resolveLog m1) (preprocessBatch evts).transactionLogs with
    | none => rw [hld] at hRT1; simp at hRT1
    | some ld =>
    rw [hld] at hRT1
    simp only [Option.some.injEq] at hRT1
    rw [runTransaction_eq, hrd, hfd, hud, hld] at h2
    simp only [Option.some.injEq] at h2
    subst h2
    have hldlen : ld.length = evts.length := by
      rw [resolveList_length hld]
      exact preprocessBatch_logs_length evts
    refine ⟨?_, rfl, ?_, ?_, ?_⟩
    · rw [show ({ stA with store := store1 } : WorkerDb).store = store1 from rfl,
        ← hRT1]
      simp only []
      rw [hstoreA]
      simp [hldlen]
    · rw [← hRT1]
      simp only []
      exact phase_idempotent fd ud stA.store.friendships
    · rw [← hRT1]
      simp only []
      exact referrals_idempotent rd stA.store.referrals
    · rw [← hRT1]
      simp only []
      simp [hldlen]
      omega

theorem c5_one_log_per_event_idempotent_witness :
    projectBatch (WorkerDb.mk [] 1 [] emptyStore)
      [ConnectionEvent.addfriend "a" "b", ConnectionEvent.unfriend "a" "b"] =
      some (WorkerDb.mk [("a", 1), ("b", 2)] 3 [("a", 1), ("b", 2)]
        (Store.mk [FriendshipRow.mk 1 2 FriendStatus.INACTIVE] []
          [LogRow.mk 1 "addfriend" (ConnectionEvent.addfriend "a" "b"),
           LogRow.mk 1 "unfriend" (ConnectionEvent.unfriend "a" "b")])) ∧
    projectBatch (WorkerDb.mk [("a", 1), ("b", 2)] 3 [("a", 1), ("b", 2)]
        (Store.mk [FriendshipRow.mk 1 2 FriendStatus.INACTIVE] []
          [LogRow.mk 1 "addfriend" (ConnectionEvent.addfriend "a" "b"),
           LogRow.mk 1 "unfriend" (ConnectionEvent.unfriend "a" "b")]))
      [ConnectionEvent.addfriend "a" "b", ConnectionEvent.unfriend "a" "b"] =
      some (WorkerDb.mk [("a", 1), ("b", 2)] 3 [("a", 1), ("b", 2)]
        (Store.mk [FriendshipRow.mk 1 2 FriendStatus.INACTIVE] []
          [LogRow.mk 1 "addfriend" (ConnectionEvent.addfriend "a" "b"),
           LogRow.mk 1 "unfriend" (ConnectionEvent.unfriend "a" "b"),
           LogRow.mk 1 "addfriend" (ConnectionEvent.addfriend "a" "b"),
           LogRow.mk 1 "unfriend" (ConnectionEvent.unfriend "a" "b")])) ∧
    (preprocessBatch
      [ConnectionEvent.addfriend "a" "b",
       ConnectionEvent.unfriend "a" "b"]).transactionLogs.length = 2 ∧
    (WorkerDb.mk [("a", 1), ("b", 2)] 3 [("a", 1), ("b", 2)]
        (Store.mk [FriendshipRow.mk 1 2 FriendStatus.INACTIVE] []
          [LogRow.mk 1 "addfriend" (ConnectionEvent.addfriend "a" "b"),
           LogRow.mk 1 "unfriend"
             (ConnectionEvent.unfriend "a" "b")])).store.logs.length =
      (WorkerDb.mk [] 1 [] emptyStore).store.logs.length + 2 ∧
    (WorkerDb.mk [("a", 1), ("b", 2)] 3 [("a", 1), ("b", 2)]
        (Store.mk [FriendshipRow.mk 1 2 FriendStatus.INACTIVE] []
          [LogRow.mk 1 "addfriend" (ConnectionEvent.addfriend "a" "b"),
           LogRow.mk 1 "unfriend" (ConnectionEvent.unfriend "a" "b"),
           LogRow.mk 1 "addfriend" (ConnectionEvent.addfriend "a" "b"),
           LogRow.mk 1 "unfriend"
             (ConnectionEvent.unfriend "a" "b")])).store.friendships =
      (WorkerDb.mk [("a", 1), ("b", 2)] 3 [("a", 1), ("b", 2)]
        (Store.mk [FriendshipRow.mk 1 2 FriendStatus.INACTIVE] []
          [LogRow.mk 1 "addfriend" (ConnectionEvent.addfriend "a" "b"),
           LogRow.mk 1 "unfriend"
             (ConnectionEvent.unfriend "a" "b")])).store.friendships := by
  refine ⟨rfl, rfl, ?_⟩
  have h := c5_one_log_per_event_idempotent (WorkerDb.mk [] 1 [] emptyStore)
    (WorkerDb.mk [("a", 1), ("b", 2)] 3 [("a", 1), ("b", 2)]
      (Store.mk [FriendshipRow.mk 1 2 FriendStatus.INACTIVE] []
        [LogRow.mk 1 "addfriend" (ConnectionEvent.addfriend "a" "b"),
         LogRow.mk 1 "unfriend" (ConnectionEvent.unfriend "a" "b")]))
    (WorkerDb.mk [("a", 1), ("b", 2)] 3 [("a", 1), ("b", 2)]
      (Store.mk [FriendshipRow.mk 1 2 FriendStatus.INACTIVE] []
        [LogRow.mk 1 "addfriend" (ConnectionEvent.addfriend "a" "b"),
         LogRow.mk 1 "unfriend" (ConnectionEvent.unfriend "a" "b"),
         LogRow.mk 1 "addfriend" (ConnectionEvent.addfriend "a" "b"),
         LogRow.mk 1 "unfriend" (ConnectionEvent.unfriend "a" "b")]))
    [ConnectionEvent.addfriend "a" "b", ConnectionEvent.unfriend "a" "b"]
    (by constructor
        · intro kv hkv
          simp at hkv
        · decide)
    rfl rfl
  exact ⟨h.1, h.2.1, h.2.2.2.1⟩

end Bacefook
